import Mathlib

set_option maxHeartbeats 1000000
set_option linter.unusedSectionVars false
set_option linter.unnecessarySimpa false
set_option linter.unusedVariables false

/-! Verification of the two components of the repository: the chaining hash table
(src/chaining_hash_table.py) and the 3-way-partition quicksort (src/quicksort.py).

Modelling conventions (shallow embedding):
* Python integers are arbitrary precision and are modelled as Nat / Int.
* The float load-factor thresholds are modelled as exact rationals compared by
  cross multiplication: the growth test `n / m > max_load_factor` becomes
  `mlf_num * m < n * mlf_den` (default 0.75 is the pair (3, 4)) and the shrink
  test `n / m < 0.20` becomes `5 * n < m`.  For power-of-two capacities `n / m`
  is an exact dyadic float and never equals 1/5 or crosses these thresholds
  inside a rounding error, so the integer comparisons agree with the source's
  float comparisons on all states whose numbers fit a float.
* `random.seed` / `random.randint` are modelled by an arbitrary stream
  `rngStream : Nat -> Nat x Nat` of draws, advanced by the counter `rngCtr`;
  theorems quantify over the stream, hence over every seed.
* `hash(key) & 0x7FFFFFFF` is modelled by `hashFn k % 2^31` for an arbitrary
  `hashFn : K -> Nat` supplied at construction time.
* The mutual recursion between `insert` and `_resize` (resize re-inserts through
  the public insert path) is embedded with explicit fuel; operations return
  `Option` and `none` means fuel exhaustion, which is proved unreachable for the
  fuel used by the operation wrappers. -/

/-- The loop `p = 1; while p < x: p <<= 1` of `_next_power_of_two`, with fuel. -/
def next_power_of_two_aux (x : Nat) : Nat → Nat → Nat
  | 0, p => p
  | fuel + 1, p => if p < x then next_power_of_two_aux x fuel (2 * p) else p

/-- `_next_power_of_two`: smallest power of two that is at least `x`.
Fuel `x` is enough because the accumulator doubles every step. -/
def next_power_of_two (x : Nat) : Nat := next_power_of_two_aux x x 1

/-- Powers of two. -/
def IsPow2 (n : Nat) : Prop := ∃ k, n = 2 ^ k

theorem next_power_of_two_aux_ge (x : Nat) :
    ∀ fuel p, x ≤ 2 ^ fuel * p → x ≤ next_power_of_two_aux x fuel p := by
  intro fuel
  induction fuel with
  | zero => intro p h; simpa [next_power_of_two_aux] using h
  | succ f ih =>
    intro p h
    simp only [next_power_of_two_aux]
    split
    · refine ih (2 * p) ?_
      calc x ≤ 2 ^ (f + 1) * p := h
      _ = 2 ^ f * (2 * p) := by ring
    · omega

theorem next_power_of_two_ge (x : Nat) : x ≤ next_power_of_two x := by
  refine next_power_of_two_aux_ge x x 1 ?_
  have := Nat.lt_two_pow x
  omega

theorem next_power_of_two_aux_pow2 (x : Nat) :
    ∀ fuel p, IsPow2 p → IsPow2 (next_power_of_two_aux x fuel p) := by
  intro fuel
  induction fuel with
  | zero => intro p h; simpa [next_power_of_two_aux] using h
  | succ f ih =>
    intro p h
    simp only [next_power_of_two_aux]
    split
    · refine ih (2 * p) ?_
      obtain ⟨k, rfl⟩ := h
      exact ⟨k + 1, by ring⟩
    · exact h

theorem next_power_of_two_pow2 (x : Nat) : IsPow2 (next_power_of_two x) :=
  next_power_of_two_aux_pow2 x x 1 ⟨0, rfl⟩

theorem next_power_of_two_aux_min (x : Nat) :
    ∀ fuel p y, IsPow2 p → IsPow2 y → p ≤ y → x ≤ y →
      next_power_of_two_aux x fuel p ≤ y := by
  intro fuel
  induction fuel with
  | zero => intro p y _ _ hpy _; simpa [next_power_of_two_aux] using hpy
  | succ f ih =>
    intro p y hp hy hpy hxy
    simp only [next_power_of_two_aux]
    split
    · rename_i hplt
      refine ih (2 * p) y ?_ hy ?_ hxy
      · obtain ⟨k, rfl⟩ := hp
        exact ⟨k + 1, by ring⟩
      · obtain ⟨k, rfl⟩ := hp
        obtain ⟨j, rfl⟩ := hy
        have hkj : k < j := by
          have h2 : (2 : Nat) ^ k < 2 ^ j := by omega
          exact (Nat.pow_lt_pow_iff_right (by omega)).mp h2
        calc 2 * 2 ^ k = 2 ^ (k + 1) := by ring
        _ ≤ 2 ^ j := Nat.pow_le_pow_right (by omega) (by omega)
    · exact hpy

/-- Minimality: `next_power_of_two x` is at most any power of two that is `≥ x`. -/
theorem next_power_of_two_min (x y : Nat) (hy : IsPow2 y) (hxy : x ≤ y) :
    next_power_of_two x ≤ y := by
  refine next_power_of_two_aux_min x x 1 y ⟨0, rfl⟩ hy ?_ hxy
  obtain ⟨j, rfl⟩ := hy
  exact Nat.one_le_two_pow

theorem next_power_of_two_eq_self (x : Nat) (hx : IsPow2 x) :
    next_power_of_two x = x :=
  Nat.le_antisymm (next_power_of_two_min x x hx le_rfl) (next_power_of_two_ge x)

theorem next_power_of_two_pos (x : Nat) : 0 < next_power_of_two x := by
  obtain ⟨k, hk⟩ := next_power_of_two_pow2 x
  rw [hk]
  exact Nat.pos_pow_of_pos k (by omega)

/-- The state of a `HashTableChaining` object (src/chaining_hash_table.py).
`mlf_num / mlf_den` is the exact rational value of `max_load_factor`. -/
structure HashTableChaining (K V : Type) where
  m : Nat
  mlf_num : Nat
  mlf_den : Nat
  n : Nat
  table : List (List (K × V))
  p : Nat
  a : Nat
  b : Nat
  hashFn : K → Nat
  rngStream : Nat → Nat × Nat
  rngCtr : Nat

variable {K V : Type} [DecidableEq K]

/-- `_index`: `((a * (hash(key) & 0x7FFFFFFF) + b) % p) % m`. -/
def HashTableChaining.index (t : HashTableChaining K V) (key : K) : Nat :=
  ((t.a * (t.hashFn key % 2147483648) + t.b) % t.p) % t.m

/-- First value stored under `key` in a bucket chain (the linear scan of
`search` and of the update loop of `insert`). -/
def findValue : List (K × V) → K → Option V
  | [], _ => none
  | (k, v) :: rest, key => if k = key then some v else findValue rest key

/-- The chain-level effect of `insert`: replace the first pair whose key equals
`key` by `(key, value)`, or append `(key, value)` at the end. -/
def chainInsert : List (K × V) → K → V → List (K × V)
  | [], key, value => [(key, value)]
  | (k, v) :: rest, key, value =>
    if k = key then (key, value) :: rest else (k, v) :: chainInsert rest key value

/-- The chain-level effect of `delete`: `bucket.pop(i)` at the first pair whose
key equals `key` (no change when the key is absent). -/
def chainRemove : List (K × V) → K → List (K × V)
  | [], _ => []
  | (k, v) :: rest, key => if k = key then rest else (k, v) :: chainRemove rest key

/-- `search(key)`: scan the chain of the key's bucket. -/
def HashTableChaining.search (t : HashTableChaining K V) (key : K) : Option V :=
  findValue (t.table.getD (t.index key) []) key

/-- The non-resizing part of `insert`: update in place if the key exists in its
bucket, else append and increment `n`. -/
def HashTableChaining.bucketInsert (t : HashTableChaining K V) (key : K) (value : V) :
    HashTableChaining K V :=
  let idx := t.index key
  let bucket := t.table.getD idx []
  { t with table := t.table.set idx (chainInsert bucket key value),
           n := t.n + if (findValue bucket key).isSome then 0 else 1 }

/-- Number of key-value pairs physically stored in the buckets. -/
def HashTableChaining.totalItems (t : HashTableChaining K V) : Nat :=
  t.table.flatten.length

/-- Sequential re-insertion of a list of pairs through a supplied insert
operation (the `for k, v in old_items: self.insert(k, v)` loop of `_resize`). -/
def insertListWith (ins : HashTableChaining K V → K → V → Option (HashTableChaining K V)) :
    HashTableChaining K V → List (K × V) → Option (HashTableChaining K V)
  | t, [] => some t
  | t, kv :: rest => (ins t kv.1 kv.2).bind fun t2 => insertListWith ins t2 rest

/-- The first half of `_resize(new_capacity)`: reallocate `next_power_of_two
new_capacity` empty buckets, reset `n` to 0 and draw fresh `(a, b)` from the
random stream. -/
def resizeBase (t : HashTableChaining K V) (new_capacity : Nat) : HashTableChaining K V :=
  let m2 := next_power_of_two new_capacity
  let draw := t.rngStream t.rngCtr
  { t with m := m2, table := List.replicate m2 [], n := 0,
           a := 1 + draw.1 % (t.p - 1), b := draw.2 % t.p,
           rngCtr := t.rngCtr + 1 }

/-- `_resize(new_capacity)`: collect all items bucket by bucket, reallocate and
redraw the hash parameters (`resizeBase`), then re-insert every collected item
through the supplied insert operation. -/
def resizeWith (ins : HashTableChaining K V → K → V → Option (HashTableChaining K V))
    (t : HashTableChaining K V) (new_capacity : Nat) : Option (HashTableChaining K V) :=
  insertListWith ins (resizeBase t new_capacity) t.table.flatten

/-- `insert(key, value)` with fuel: grow (double the capacity) when
`load_factor() > max_load_factor`, then update-or-append in the key's bucket. -/
def HashTableChaining.insertF :
    Nat → HashTableChaining K V → K → V → Option (HashTableChaining K V)
  | 0, _, _, _ => none
  | fuel + 1, t, key, value =>
    (if t.mlf_num * t.m < t.n * t.mlf_den then
        resizeWith (HashTableChaining.insertF fuel) t (2 * t.m)
      else some t).bind
      fun t1 => some (t1.bucketInsert key value)

/-- The removal step of `delete`: `bucket.pop(i)` at the first matching pair of
the key's bucket and decrement `n` (used only when the key was found). -/
def HashTableChaining.bucketRemove (t : HashTableChaining K V) (key : K) :
    HashTableChaining K V :=
  let idx := t.index key
  let bucket := t.table.getD idx []
  { t with table := t.table.set idx (chainRemove bucket key), n := t.n - 1 }

/-- `delete(key)` with fuel: remove the first matching pair of the key's bucket;
on success, shrink to half capacity when `m > 8` and `load_factor() < 0.20`.
Returns the table together with the boolean result of `delete`. -/
def HashTableChaining.deleteF :
    Nat → HashTableChaining K V → K → Option (HashTableChaining K V × Bool)
  | 0, _, _ => none
  | fuel + 1, t, key =>
    let bucket := t.table.getD (t.index key) []
    if (findValue bucket key).isSome then
      let t1 := t.bucketRemove key
      if 8 < t1.m ∧ 5 * t1.n < t1.m then
        (resizeWith (HashTableChaining.insertF fuel) t1 (t1.m / 2)).map fun t2 => (t2, true)
      else some (t1, true)
    else some (t, false)

/-- The constructor `HashTableChaining(initial_capacity, max_load_factor, seed)`:
capacity is forced to at least 2 and rounded up to a power of two; `(a, b)` are
drawn from the random stream (`random.randint(1, p-1)` and
`random.randint(0, p-1)` after `random.seed(seed)`). -/
def mkHashTable (V : Type) (initial_capacity : Nat) (mlf_num mlf_den : Nat)
    (hashFn : K → Nat) (stream : Nat → Nat × Nat) : HashTableChaining K V :=
  let cap := if initial_capacity < 2 then 2 else initial_capacity
  let m := next_power_of_two cap
  let p : Nat := 2147483647
  { m := m, mlf_num := mlf_num, mlf_den := mlf_den, n := 0,
    table := List.replicate m [], p := p,
    a := 1 + (stream 0).1 % (p - 1), b := (stream 0).2 % p,
    hashFn := hashFn, rngStream := stream, rngCtr := 1 }

/-- Structural invariant of every reachable table state: the bucket array has
length `m`, `m` is a power of two, `n` counts the stored pairs, every stored
pair sits in the bucket its key hashes to, and no bucket has a duplicated key. -/
def HashTableChaining.Inv (t : HashTableChaining K V) : Prop :=
  t.table.length = t.m ∧ IsPow2 t.m ∧ t.n = t.table.flatten.length ∧
  (∀ i < t.table.length, ∀ kv ∈ t.table.getD i [], t.index kv.1 = i) ∧
  (∀ i < t.table.length, (((t.table.getD i []).map Prod.fst).Nodup))

/-! Chain-level lemmas. -/

theorem findValue_chainInsert_self (l : List (K × V)) (key : K) (value : V) :
    findValue (chainInsert l key value) key = some value := by
  induction l with
  | nil => simp [chainInsert, findValue]
  | cons kv rest ih =>
    obtain ⟨k, v⟩ := kv
    by_cases h : k = key
    · simp [chainInsert, h, findValue]
    · simp [chainInsert, h, findValue, ih]

theorem findValue_chainInsert_ne (l : List (K × V)) (key k2 : K) (value : V)
    (h : k2 ≠ key) : findValue (chainInsert l key value) k2 = findValue l k2 := by
  induction l with
  | nil => simp [chainInsert, findValue, Ne.symm h]
  | cons kv rest ih =>
    obtain ⟨k, v⟩ := kv
    by_cases hk : k = key
    · subst hk
      simp [chainInsert, findValue, Ne.symm h]
    · simp [chainInsert, hk, findValue, ih]

theorem chainInsert_mem (l : List (K × V)) (key : K) (value : V) (kv : K × V)
    (h : kv ∈ chainInsert l key value) : kv = (key, value) ∨ kv ∈ l := by
  induction l with
  | nil => simpa [chainInsert] using h
  | cons kv2 rest ih =>
    obtain ⟨k, v⟩ := kv2
    by_cases hk : k = key
    · simp only [chainInsert, hk, if_pos rfl] at h
      rcases List.mem_cons.mp h with h1 | h1
      · exact Or.inl h1
      · exact Or.inr (List.mem_cons_of_mem _ h1)
    · simp only [chainInsert, hk, if_neg hk] at h
      rcases List.mem_cons.mp h with h1 | h1
      · exact Or.inr (h1 ▸ List.mem_cons_self _ _)
      · rcases ih h1 with h2 | h2
        · exact Or.inl h2
        · exact Or.inr (List.mem_cons_of_mem _ h2)

theorem chainInsert_keys (l : List (K × V)) (key : K) (value : V) :
    (chainInsert l key value).map Prod.fst =
      if (findValue l key).isSome then l.map Prod.fst else l.map Prod.fst ++ [key] := by
  induction l with
  | nil => simp [chainInsert, findValue]
  | cons kv rest ih =>
    obtain ⟨k, v⟩ := kv
    by_cases hk : k = key
    · subst hk
      simp [chainInsert, findValue]
    · simp only [chainInsert, if_neg hk, findValue, List.map_cons, ih]
      by_cases hf : (findValue rest key).isSome
      · simp [hf]
      · simp [hf]

theorem findValue_isSome_iff (l : List (K × V)) (key : K) :
    (findValue l key).isSome ↔ key ∈ l.map Prod.fst := by
  induction l with
  | nil => simp [findValue]
  | cons kv rest ih =>
    obtain ⟨k, v⟩ := kv
    by_cases hk : k = key
    · simp [findValue, hk]
    · simp [findValue, hk, ih, Ne.symm hk]

theorem chainInsert_keys_nodup (l : List (K × V)) (key : K) (value : V)
    (h : (l.map Prod.fst).Nodup) : ((chainInsert l key value).map Prod.fst).Nodup := by
  rw [chainInsert_keys]
  split
  · exact h
  · rename_i hnone
    have hkey : key ∉ l.map Prod.fst :=
      fun hmem => hnone ((findValue_isSome_iff l key).mpr hmem)
    refine List.Nodup.append h (List.nodup_singleton key) ?_
    intro x hx hx2
    rw [List.mem_singleton] at hx2
    exact hkey (hx2 ▸ hx)

theorem chainInsert_length (l : List (K × V)) (key : K) (value : V) :
    (chainInsert l key value).length =
      l.length + (if (findValue l key).isSome then 0 else 1) := by
  induction l with
  | nil => simp [chainInsert, findValue]
  | cons kv rest ih =>
    obtain ⟨k, v⟩ := kv
    by_cases hk : k = key
    · simp [chainInsert, hk, findValue]
    · simp only [chainInsert, if_neg hk, findValue, List.length_cons, ih]
      by_cases hf : (findValue rest key).isSome
      · simp [hf, hk]
      · simp [hf, hk]

theorem chainRemove_sublist (l : List (K × V)) (key : K) :
    (chainRemove l key).Sublist l := by
  induction l with
  | nil => simp [chainRemove]
  | cons kv rest ih =>
    obtain ⟨k, v⟩ := kv
    by_cases hk : k = key
    · rw [chainRemove, if_pos hk]
      exact List.sublist_cons_self (k, v) rest
    · rw [chainRemove, if_neg hk]
      exact List.Sublist.cons₂ (k, v) ih

theorem findValue_chainRemove_self (l : List (K × V)) (key : K)
    (h : (l.map Prod.fst).Nodup) : findValue (chainRemove l key) key = none := by
  induction l with
  | nil => simp [chainRemove, findValue]
  | cons kv rest ih =>
    obtain ⟨k, v⟩ := kv
    simp only [List.map_cons, List.nodup_cons] at h
    by_cases hk : k = key
    · subst hk
      simp only [chainRemove, if_pos rfl]
      rw [← Option.not_isSome_iff_eq_none, findValue_isSome_iff]
      exact h.1
    · simp [chainRemove, hk, findValue, ih h.2]

theorem findValue_chainRemove_ne (l : List (K × V)) (key k2 : K) (h : k2 ≠ key) :
    findValue (chainRemove l key) k2 = findValue l k2 := by
  induction l with
  | nil => simp [chainRemove]
  | cons kv rest ih =>
    obtain ⟨k, v⟩ := kv
    by_cases hk : k = key
    · subst hk
      simp [chainRemove, findValue, Ne.symm h]
    · simp [chainRemove, hk, findValue, ih]

theorem chainRemove_length (l : List (K × V)) (key : K)
    (h : (findValue l key).isSome) : (chainRemove l key).length + 1 = l.length := by
  induction l with
  | nil => simp [findValue] at h
  | cons kv rest ih =>
    obtain ⟨k, v⟩ := kv
    by_cases hk : k = key
    · simp [chainRemove, hk]
    · simp only [findValue, if_neg hk] at h
      simp [chainRemove, hk, ih h]

/-! List-of-buckets helper lemmas. -/

theorem getD_set_self {α : Type} (l : List α) (i : Nat) (x d : α) (h : i < l.length) :
    (l.set i x).getD i d = x := by
  rw [List.getD_eq_getElem?_getD, List.getElem?_set_self (by simpa using h)]
  rfl

theorem getD_set_ne {α : Type} (l : List α) (i j : Nat) (x d : α) (h : i ≠ j) :
    (l.set i x).getD j d = l.getD j d := by
  rw [List.getD_eq_getElem?_getD, List.getElem?_set_ne h, ← List.getD_eq_getElem?_getD]

theorem flatten_length_set {α : Type} (bs : List (List α)) (i : Nat) (nb : List α)
    (h : i < bs.length) :
    (bs.set i nb).flatten.length + (bs.getD i []).length =
      bs.flatten.length + nb.length := by
  induction bs generalizing i with
  | nil => simp at h
  | cons hd tl ih =>
    cases i with
    | zero => simp [List.set]; omega
    | succ j =>
      have hj : j < tl.length := by simpa using h
      have := ih j hj
      simp only [List.set, List.flatten_cons, List.length_append, List.getD_cons_succ]
      omega

/-! Specification of the non-resizing insert step. -/

theorem HashTableChaining.m_pos (t : HashTableChaining K V) (ht : t.Inv) : 0 < t.m := by
  obtain ⟨k, hk⟩ := ht.2.1
  rw [hk]
  exact Nat.pos_pow_of_pos k (by omega)

theorem HashTableChaining.index_lt (t : HashTableChaining K V) (ht : t.Inv) (key : K) :
    t.index key < t.table.length := by
  rw [ht.1]
  exact Nat.mod_lt _ (t.m_pos ht)

theorem HashTableChaining.bucketInsert_index (t : HashTableChaining K V)
    (key : K) (value : V) (k2 : K) :
    (t.bucketInsert key value).index k2 = t.index k2 := rfl

theorem HashTableChaining.bucketInsert_n (t : HashTableChaining K V) (key : K) (value : V) :
    (t.bucketInsert key value).n = t.n + (if (t.search key).isSome then 0 else 1) := rfl

theorem HashTableChaining.bucketInsert_search (t : HashTableChaining K V)
    (key : K) (value : V) (ht : t.Inv) (k2 : K) :
    (t.bucketInsert key value).search k2 =
      if k2 = key then some value else t.search k2 := by
  have hlt := t.index_lt ht key
  have hform : (t.bucketInsert key value).search k2 =
      findValue ((t.table.set (t.index key)
        (chainInsert (t.table.getD (t.index key) []) key value)).getD (t.index k2) []) k2 := rfl
  rw [hform]
  by_cases hk : k2 = key
  · subst hk
    rw [if_pos rfl, getD_set_self _ _ _ _ hlt]
    exact findValue_chainInsert_self _ _ _
  · rw [if_neg hk]
    by_cases hidx : t.index k2 = t.index key
    · rw [hidx, getD_set_self _ _ _ _ hlt]
      rw [HashTableChaining.search, hidx]
      exact findValue_chainInsert_ne _ _ _ _ hk
    · rw [getD_set_ne _ _ _ _ _ (fun hh => hidx hh.symm)]
      rfl

theorem HashTableChaining.bucketInsert_Inv (t : HashTableChaining K V)
    (key : K) (value : V) (ht : t.Inv) : (t.bucketInsert key value).Inv := by
  obtain ⟨hlen, hpow, hn, hres, hnd⟩ := ht
  have hlt : t.index key < t.table.length := by
    rw [hlen]; exact Nat.mod_lt _ (t.m_pos ⟨hlen, hpow, hn, hres, hnd⟩)
  refine ⟨by simpa [HashTableChaining.bucketInsert] using hlen, hpow, ?_, ?_, ?_⟩
  · show t.n + _ = _
    have hset := flatten_length_set t.table (t.index key)
      (chainInsert (t.table.getD (t.index key) []) key value) hlt
    have hchain := chainInsert_length (t.table.getD (t.index key) []) key value
    simp only [HashTableChaining.bucketInsert]
    omega
  · intro i hi kv hkv
    simp only [HashTableChaining.bucketInsert, List.length_set] at hi
    simp only [HashTableChaining.bucketInsert] at hkv
    show t.index kv.1 = i
    by_cases hidx : i = t.index key
    · subst hidx
      rw [getD_set_self _ _ _ _ hlt] at hkv
      rcases chainInsert_mem _ _ _ _ hkv with h1 | h1
      · rw [h1]
      · exact hres _ hi _ h1
    · rw [getD_set_ne _ _ _ _ _ (fun hh => hidx hh.symm)] at hkv
      exact hres _ hi _ hkv
  · intro i hi
    simp only [HashTableChaining.bucketInsert, List.length_set] at hi
    simp only [HashTableChaining.bucketInsert]
    by_cases hidx : i = t.index key
    · subst hidx
      rw [getD_set_self _ _ _ _ hlt]
      exact chainInsert_keys_nodup _ _ _ (hnd _ hi)
    · rw [getD_set_ne _ _ _ _ _ (fun hh => hidx hh.symm)]
      exact hnd _ hi

/-! Functional abstraction of a sequence of inserts: `foldUpd` is the key-to-value
function obtained by applying a list of updates to a base lookup function, and
`keysAdded` counts how many of the updates hit a fresh key. -/

def updFn (f : K → Option V) (key : K) (value : V) : K → Option V :=
  fun k2 => if k2 = key then some value else f k2

def foldUpd (f : K → Option V) : List (K × V) → K → Option V
  | [], k2 => f k2
  | kv :: rest, k2 => foldUpd (updFn f kv.1 kv.2) rest k2

def keysAdded (f : K → Option V) : List (K × V) → Nat
  | [] => 0
  | kv :: rest => (if (f kv.1).isSome then 0 else 1) + keysAdded (updFn f kv.1 kv.2) rest

theorem foldUpd_congr (L : List (K × V)) :
    ∀ (f g : K → Option V), (∀ k2, f k2 = g k2) → ∀ k2, foldUpd f L k2 = foldUpd g L k2 := by
  induction L with
  | nil => intro f g h k2; exact h k2
  | cons kv rest ih =>
    intro f g h k2
    refine ih _ _ ?_ k2
    intro k3
    simp only [updFn, h k3]

theorem keysAdded_congr (L : List (K × V)) :
    ∀ (f g : K → Option V), (∀ k2, f k2 = g k2) → keysAdded f L = keysAdded g L := by
  induction L with
  | nil => intro f g h; rfl
  | cons kv rest ih =>
    intro f g h
    simp only [keysAdded, h kv.1]
    congr 1
    refine ih _ _ ?_
    intro k3
    simp only [updFn, h k3]

theorem foldUpd_append (L1 L2 : List (K × V)) :
    ∀ (f : K → Option V) (k2 : K), foldUpd f (L1 ++ L2) k2 = foldUpd (fun k3 => foldUpd f L1 k3) L2 k2 := by
  induction L1 with
  | nil => intro f k2; rfl
  | cons kv rest ih =>
    intro f k2
    simp only [List.cons_append, foldUpd]
    exact ih _ _

theorem foldUpd_no_key (L : List (K × V)) :
    ∀ (f : K → Option V) (k2 : K), (∀ kv ∈ L, kv.1 ≠ k2) → foldUpd f L k2 = f k2 := by
  induction L with
  | nil => intro f k2 _; rfl
  | cons kv rest ih =>
    intro f k2 h
    simp only [foldUpd]
    rw [ih _ _ (fun kv2 hm => h kv2 (List.mem_cons_of_mem _ hm))]
    simp only [updFn]
    rw [if_neg ?_]
    exact fun hh => h kv (List.mem_cons_self _ _) hh.symm

theorem foldUpd_nodup (L : List (K × V)) :
    ∀ (f : K → Option V) (k2 : K), ((L.map Prod.fst).Nodup) →
      foldUpd f L k2 = (findValue L k2).or (f k2) := by
  induction L with
  | nil => intro f k2 _; rfl
  | cons kv rest ih =>
    intro f k2 h
    obtain ⟨k, v⟩ := kv
    simp only [List.map_cons, List.nodup_cons] at h
    simp only [foldUpd, findValue]
    by_cases hk : k = k2
    · subst hk
      rw [foldUpd_no_key rest _ _ ?hnk]
      · simp [updFn]
      case hnk =>
        intro kv2 hm hh
        exact h.1 (List.mem_map.mpr ⟨kv2, hm, hh⟩)
    · rw [ih _ _ h.2, if_neg hk]
      simp only [updFn]
      rw [if_neg (fun hh => hk hh.symm)]

theorem keysAdded_of_none (L : List (K × V)) :
    ∀ (f : K → Option V), ((L.map Prod.fst).Nodup) → (∀ kv ∈ L, f kv.1 = none) →
      keysAdded f L = L.length := by
  induction L with
  | nil => intro f _ _; rfl
  | cons kv rest ih =>
    intro f h hf
    obtain ⟨k, v⟩ := kv
    simp only [List.map_cons, List.nodup_cons] at h
    have hk0 : f k = none := hf (k, v) (List.mem_cons_self _ _)
    show (if (f k).isSome then 0 else 1) + keysAdded (updFn f k v) rest = rest.length + 1
    rw [hk0]
    rw [if_neg (by simp)]
    rw [ih _ h.2 ?_]
    · omega
    · intro kv2 hm
      simp only [updFn]
      rw [if_neg ?_, hf kv2 (List.mem_cons_of_mem _ hm)]
      intro hh
      exact h.1 (List.mem_map.mpr ⟨kv2, hm, hh⟩)

/-! Reading the whole table through `foldUpd` of the flattened bucket list. -/

theorem foldUpd_flatten_aux (f : K → Nat) :
    ∀ (bs : List (List (K × V))) (j : Nat) (base : K → Option V) (k2 : K),
      (∀ i, ∀ kv ∈ bs.getD i [], f kv.1 = j + i) →
      (∀ i, ((bs.getD i []).map Prod.fst).Nodup) →
      foldUpd base bs.flatten k2 =
        if f k2 < j then base k2
        else (findValue (bs.getD (f k2 - j) []) k2).or (base k2) := by
  intro bs
  induction bs with
  | nil =>
    intro j base k2 _ _
    simp only [List.flatten_nil, foldUpd]
    split
    · rfl
    · simp [List.getD, findValue, Option.or]
  | cons bhd btl ih =>
    intro j base k2 hres hnd
    have hres0 : ∀ kv ∈ bhd, f kv.1 = j := by
      intro kv hm
      simpa using hres 0 kv (by simpa using hm)
    have hrestl : ∀ i, ∀ kv ∈ btl.getD i [], f kv.1 = (j + 1) + i := by
      intro i kv hm
      have := hres (i + 1) kv (by simpa using hm)
      omega
    have hndtl : ∀ i, ((btl.getD i []).map Prod.fst).Nodup := by
      intro i
      simpa using hnd (i + 1)
    simp only [List.flatten_cons, foldUpd_append]
    rw [ih (j + 1) _ k2 hrestl hndtl]
    by_cases hlt : f k2 < j
    · rw [if_pos (by omega), if_pos hlt]
      refine foldUpd_no_key bhd base k2 ?_
      intro kv hm hh
      have h1 := hres0 kv hm
      rw [hh] at h1
      omega
    · by_cases heq : f k2 = j
      · rw [if_pos (by omega), if_neg hlt]
        have hd0 : (bhd :: btl).getD (f k2 - j) [] = bhd := by
          rw [heq]
          simp
        rw [hd0]
        rw [foldUpd_nodup bhd base k2 (by simpa using hnd 0)]
      · rw [if_neg (by omega), if_neg hlt]
        have hd1 : (bhd :: btl).getD (f k2 - j) [] = btl.getD (f k2 - j - 1) [] := by
          have hge : f k2 - j = (f k2 - j - 1) + 1 := by omega
          rw [hge]
          simp
        rw [hd1]
        have hgt : f k2 - (j + 1) = f k2 - j - 1 := by omega
        rw [hgt]
        congr 1
        refine foldUpd_no_key bhd base k2 ?_
        intro kv hm hh
        have h1 := hres0 kv hm
        rw [hh] at h1
        omega

theorem flatten_keys_nodup_aux (f : K → Nat) :
    ∀ (bs : List (List (K × V))) (j : Nat),
      (∀ i, ∀ kv ∈ bs.getD i [], f kv.1 = j + i) →
      (∀ i, ((bs.getD i []).map Prod.fst).Nodup) →
      ((bs.flatten.map Prod.fst).Nodup) := by
  intro bs
  induction bs with
  | nil => intro j _ _; simp
  | cons bhd btl ih =>
    intro j hres hnd
    have hres0 : ∀ kv ∈ bhd, f kv.1 = j := by
      intro kv hm
      simpa using hres 0 kv (by simpa using hm)
    simp only [List.flatten_cons, List.map_append]
    refine List.Nodup.append (by simpa using hnd 0) ?_ ?_
    · refine ih (j + 1) ?_ ?_
      · intro i kv hm
        have := hres (i + 1) kv (by simpa using hm)
        omega
      · intro i
        simpa using hnd (i + 1)
    · intro x hx1 hx2
      obtain ⟨kv1, hm1, hf1⟩ := List.mem_map.mp hx1
      obtain ⟨kv2, hm2, hf2⟩ := List.mem_map.mp hx2
      obtain ⟨bk, hbk, hmbk⟩ := List.mem_flatten.mp hm2
      obtain ⟨i, hilt, hgi⟩ := List.mem_iff_getElem.mp hbk
      have hgd : btl.getD i [] = bk := by
        rw [List.getD_eq_getElem?_getD, List.getElem?_eq_getElem hilt, hgi]
        rfl
      have h1 : f kv1.1 = j := hres0 kv1 hm1
      have h2 : f kv2.1 = j + 1 + i := by
        have := hres (i + 1) kv2 ?_
        · omega
        · simp only [List.getD_cons_succ, hgd]
          exact hmbk
      rw [← hf2] at hf1
      rw [hf1] at h1
      omega

/-! Specification of resize and of the fueled insert. -/

theorem getD_replicate_nil {α : Type} : ∀ (mm i : Nat),
    (List.replicate mm ([] : List α)).getD i [] = [] := by
  intro mm
  induction mm with
  | zero => intro i; simp [List.replicate]
  | succ mm2 ih =>
    intro i
    cases i with
    | zero => simp [List.replicate]
    | succ i2 => simpa [List.replicate] using ih i2

theorem flatten_replicate_nil {α : Type} : ∀ mm : Nat,
    (List.replicate mm ([] : List α)).flatten = [] := by
  intro mm
  induction mm with
  | zero => simp
  | succ mm2 ih => simpa [List.replicate]

theorem HashTableChaining.res_all (t : HashTableChaining K V) (ht : t.Inv) :
    ∀ i, ∀ kv ∈ t.table.getD i [], t.index kv.1 = i := by
  intro i kv hm
  by_cases hi : i < t.table.length
  · exact ht.2.2.2.1 i hi kv hm
  · rw [List.getD_eq_default _ _ (by omega)] at hm
    cases hm

theorem HashTableChaining.nodup_all (t : HashTableChaining K V) (ht : t.Inv) :
    ∀ i, (((t.table.getD i []).map Prod.fst).Nodup) := by
  intro i
  by_cases hi : i < t.table.length
  · exact ht.2.2.2.2 i hi
  · rw [List.getD_eq_default _ _ (by omega)]
    simp

/-- Reading any reachable table through the cumulative-update function of its
flattened item list agrees with `search`. -/
theorem HashTableChaining.search_eq_foldUpd (t : HashTableChaining K V) (ht : t.Inv)
    (k2 : K) : foldUpd (fun _ => none) t.table.flatten k2 = t.search k2 := by
  have haux := foldUpd_flatten_aux (fun key => t.index key) t.table 0
    (fun _ => none) k2 (by simpa using t.res_all ht) (t.nodup_all ht)
  rw [haux]
  rw [if_neg (by omega)]
  simp only [Nat.sub_zero, Option.or_none]
  rfl

/-- The keys stored anywhere in the table are pairwise distinct. -/
theorem HashTableChaining.flatten_nodup (t : HashTableChaining K V) (ht : t.Inv) :
    ((t.table.flatten.map Prod.fst).Nodup) :=
  flatten_keys_nodup_aux (fun key => t.index key) t.table 0
    (by simpa using t.res_all ht) (t.nodup_all ht)

theorem resizeBase_Inv (t : HashTableChaining K V) (cap : Nat) : (resizeBase t cap).Inv := by
  refine ⟨by simp [resizeBase], next_power_of_two_pow2 cap, ?_, ?_, ?_⟩
  · show 0 = _
    rw [show (resizeBase t cap).table = List.replicate (next_power_of_two cap) [] from rfl]
    rw [flatten_replicate_nil]
    rfl
  · intro i hi kv hm
    rw [show (resizeBase t cap).table = List.replicate (next_power_of_two cap) [] from rfl,
      getD_replicate_nil] at hm
    cases hm
  · intro i hi
    rw [show (resizeBase t cap).table = List.replicate (next_power_of_two cap) [] from rfl,
      getD_replicate_nil]
    simp

theorem resizeBase_search (t : HashTableChaining K V) (cap : Nat) (k2 : K) :
    (resizeBase t cap).search k2 = none := by
  show findValue ((List.replicate (next_power_of_two cap) []).getD _ []) k2 = none
  rw [getD_replicate_nil]
  rfl

/-- The conclusions of one successful insert: the invariant is preserved, the
load-factor parameters are unchanged, `n` grows exactly when the key was new,
and the observable mapping is the point update of the old one. -/
def InsSpec (t t2 : HashTableChaining K V) (key : K) (value : V) : Prop :=
  t2.Inv ∧ t2.mlf_num = t.mlf_num ∧ t2.mlf_den = t.mlf_den ∧
  t2.n = t.n + (if (t.search key).isSome then 0 else 1) ∧
  ∀ k2, t2.search k2 = updFn t.search key value k2

theorem bucketInsert_InsSpec (t : HashTableChaining K V) (key : K) (value : V)
    (ht : t.Inv) : InsSpec t (t.bucketInsert key value) key value := by
  refine ⟨t.bucketInsert_Inv key value ht, rfl, rfl, t.bucketInsert_n key value, ?_⟩
  intro k2
  rw [t.bucketInsert_search key value ht k2]
  rfl

theorem insertListWith_spec
    (ins : HashTableChaining K V → K → V → Option (HashTableChaining K V))
    (Hins : ∀ t key value t2, t.Inv → ins t key value = some t2 → InsSpec t t2 key value) :
    ∀ (L : List (K × V)) (t t2 : HashTableChaining K V), t.Inv →
      insertListWith ins t L = some t2 →
      t2.Inv ∧ t2.mlf_num = t.mlf_num ∧ t2.mlf_den = t.mlf_den ∧
      (∀ k2, t2.search k2 = foldUpd t.search L k2) ∧
      t2.n = t.n + keysAdded t.search L := by
  intro L
  induction L with
  | nil =>
    intro t t2 ht h
    cases h
    exact ⟨ht, rfl, rfl, fun k2 => rfl, rfl⟩
  | cons kv rest ih =>
    intro t t2 ht h
    simp only [insertListWith, Option.bind_eq_bind, Option.bind_eq_some] at h
    obtain ⟨tm, hins, hrest⟩ := h
    obtain ⟨hmInv, hmlf1, hmlf2, hmn, hmsearch⟩ := Hins t kv.1 kv.2 tm ht hins
    obtain ⟨h2Inv, h2mlf1, h2mlf2, h2search, h2n⟩ := ih tm t2 hmInv hrest
    refine ⟨h2Inv, by omega, by omega, ?_, ?_⟩
    · intro k2
      rw [h2search k2]
      show _ = foldUpd (updFn t.search kv.1 kv.2) rest k2
      exact foldUpd_congr rest _ _ hmsearch k2
    · rw [h2n, hmn]
      show _ = t.n + ((if (t.search kv.1).isSome then 0 else 1) + keysAdded (updFn t.search kv.1 kv.2) rest)
      rw [keysAdded_congr rest _ _ hmsearch]
      omega

theorem resizeWith_spec
    (ins : HashTableChaining K V → K → V → Option (HashTableChaining K V))
    (Hins : ∀ t key value t2, t.Inv → ins t key value = some t2 → InsSpec t t2 key value)
    (t : HashTableChaining K V) (cap : Nat) (t2 : HashTableChaining K V)
    (ht : t.Inv) (h : resizeWith ins t cap = some t2) :
    t2.Inv ∧ t2.mlf_num = t.mlf_num ∧ t2.mlf_den = t.mlf_den ∧ t2.n = t.n ∧
    ∀ k2, t2.search k2 = t.search k2 := by
  obtain ⟨h2Inv, h2mlf1, h2mlf2, h2search, h2n⟩ :=
    insertListWith_spec ins Hins t.table.flatten (resizeBase t cap) t2 (resizeBase_Inv t cap) h
  have hbase : ∀ k2, (resizeBase t cap).search k2 = (fun _ => none) k2 :=
    fun k2 => resizeBase_search t cap k2
  refine ⟨h2Inv, h2mlf1, h2mlf2, ?_, ?_⟩
  · rw [h2n]
    show (0 : Nat) + _ = _
    rw [keysAdded_congr t.table.flatten _ _ hbase]
    rw [keysAdded_of_none t.table.flatten _ (t.flatten_nodup ht) (fun kv _ => rfl)]
    have := ht.2.2.1
    show 0 + t.table.flatten.length = t.n
    omega
  · intro k2
    rw [h2search k2]
    rw [foldUpd_congr t.table.flatten _ _ hbase k2]
    exact t.search_eq_foldUpd ht k2

/-- Full functional specification of `insert`, by induction on fuel. -/
theorem HashTableChaining.insertF_spec :
    ∀ (fuel : Nat) (t : HashTableChaining K V) (key : K) (value : V) t2, t.Inv →
      HashTableChaining.insertF fuel t key value = some t2 → InsSpec t t2 key value := by
  intro fuel
  induction fuel with
  | zero => intro t key value t2 _ h; cases h
  | succ f ih =>
    intro t key value t2 ht h
    simp only [HashTableChaining.insertF, Option.bind_eq_bind, Option.bind_eq_some] at h
    obtain ⟨t1, h1, h2⟩ := h
    cases h2
    by_cases hgrow : t.mlf_num * t.m < t.n * t.mlf_den
    · rw [if_pos hgrow] at h1
      obtain ⟨h1Inv, h1mlf1, h1mlf2, h1n, h1search⟩ :=
        resizeWith_spec (HashTableChaining.insertF f) ih t (2 * t.m) t1 ht h1
      obtain ⟨h2Inv, h2mlf1, h2mlf2, h2n, h2search⟩ := bucketInsert_InsSpec t1 key value h1Inv
      refine ⟨h2Inv, by omega, by omega, ?_, ?_⟩
      · rw [h2n, h1n, h1search key]
      · intro k2
        rw [h2search k2]
        simp only [updFn, h1search k2]
    · rw [if_neg hgrow] at h1
      cases h1
      exact bucketInsert_InsSpec t key value ht

/-! Specification of the fueled delete. -/

theorem HashTableChaining.bucketRemove_search (t : HashTableChaining K V) (key : K)
    (ht : t.Inv) (k2 : K) :
    (t.bucketRemove key).search k2 = if k2 = key then none else t.search k2 := by
  have hlt := t.index_lt ht key
  have hform : (t.bucketRemove key).search k2 =
      findValue ((t.table.set (t.index key)
        (chainRemove (t.table.getD (t.index key) []) key)).getD (t.index k2) []) k2 := rfl
  rw [hform]
  by_cases hk : k2 = key
  · subst hk
    rw [if_pos rfl, getD_set_self _ _ _ _ hlt]
    exact findValue_chainRemove_self _ _ (t.nodup_all ht (t.index k2))
  · rw [if_neg hk]
    by_cases hidx : t.index k2 = t.index key
    · rw [hidx, getD_set_self _ _ _ _ hlt]
      rw [HashTableChaining.search, hidx]
      exact findValue_chainRemove_ne _ _ _ hk
    · rw [getD_set_ne _ _ _ _ _ (fun hh => hidx hh.symm)]
      rfl

theorem HashTableChaining.bucketRemove_Inv (t : HashTableChaining K V) (key : K)
    (ht : t.Inv) (hfound : (t.search key).isSome) : (t.bucketRemove key).Inv := by
  obtain ⟨hlen, hpow, hn, hres, hnd⟩ := ht
  have hti : t.Inv := ⟨hlen, hpow, hn, hres, hnd⟩
  have hlt : t.index key < t.table.length := t.index_lt hti key
  refine ⟨by simpa [HashTableChaining.bucketRemove] using hlen, hpow, ?_, ?_, ?_⟩
  · show t.n - 1 = _
    have hset := flatten_length_set t.table (t.index key)
      (chainRemove (t.table.getD (t.index key) []) key) hlt
    have hchain := chainRemove_length (t.table.getD (t.index key) []) key hfound
    simp only [HashTableChaining.bucketRemove]
    omega
  · intro i hi kv hkv
    simp only [HashTableChaining.bucketRemove, List.length_set] at hi
    simp only [HashTableChaining.bucketRemove] at hkv
    show t.index kv.1 = i
    by_cases hidx : i = t.index key
    · subst hidx
      rw [getD_set_self _ _ _ _ hlt] at hkv
      exact hres _ hi _ ((chainRemove_sublist _ key).mem hkv)
    · rw [getD_set_ne _ _ _ _ _ (fun hh => hidx hh.symm)] at hkv
      exact hres _ hi _ hkv
  · intro i hi
    simp only [HashTableChaining.bucketRemove, List.length_set] at hi
    simp only [HashTableChaining.bucketRemove]
    by_cases hidx : i = t.index key
    · subst hidx
      rw [getD_set_self _ _ _ _ hlt]
      exact (hnd _ hi).sublist ((chainRemove_sublist _ key).map Prod.fst)
    · rw [getD_set_ne _ _ _ _ _ (fun hh => hidx hh.symm)]
      exact hnd _ hi

/-- Full functional specification of `delete`. -/
theorem HashTableChaining.deleteF_spec :
    ∀ (fuel : Nat) (t : HashTableChaining K V) (key : K) t2 bb, t.Inv →
      HashTableChaining.deleteF fuel t key = some (t2, bb) →
      t2.Inv ∧ t2.mlf_num = t.mlf_num ∧ t2.mlf_den = t.mlf_den ∧
      bb = (t.search key).isSome ∧
      t2.n = t.n - (if bb then 1 else 0) ∧
      ∀ k2, t2.search k2 = if k2 = key then none else t.search k2 := by
  intro fuel t key t2 bb ht h
  cases fuel with
  | zero => cases h
  | succ f =>
    have hsearch_eq : (t.search key) = findValue (t.table.getD (t.index key) []) key := rfl
    simp only [HashTableChaining.deleteF] at h
    by_cases hfound : (findValue (t.table.getD (t.index key) []) key).isSome
    · rw [if_pos hfound] at h
      have ht1 : (t.bucketRemove key).Inv :=
        t.bucketRemove_Inv key ht (by rw [hsearch_eq]; exact hfound)
      by_cases hshrink : 8 < (t.bucketRemove key).m ∧
          5 * (t.bucketRemove key).n < (t.bucketRemove key).m
      · rw [if_pos hshrink] at h
        obtain ⟨t3, hres, heq⟩ := Option.map_eq_some'.mp h
        obtain ⟨heq1, heq2⟩ := Prod.mk.injEq .. ▸ heq
        have hspec := resizeWith_spec (HashTableChaining.insertF f)
          (HashTableChaining.insertF_spec f) (t.bucketRemove key) _ t3 ht1 hres
        subst heq1
        refine ⟨hspec.1, hspec.2.1, hspec.2.2.1, ?_, ?_, ?_⟩
        · rw [← heq2, hsearch_eq, hfound]
        · rw [← heq2, hspec.2.2.2.1]
          show (t.bucketRemove key).n = t.n - 1
          rfl
        · intro k2
          rw [hspec.2.2.2.2 k2, t.bucketRemove_search key ht k2]
      · rw [if_neg hshrink] at h
        obtain ⟨heq1, heq2⟩ := Prod.mk.injEq .. ▸ (Option.some.injEq .. ▸ h)
        subst heq1
        refine ⟨ht1, rfl, rfl, ?_, ?_, ?_⟩
        · rw [← heq2, hsearch_eq, hfound]
        · rw [← heq2]
          show (t.bucketRemove key).n = t.n - 1
          rfl
        · exact t.bucketRemove_search key ht
    · rw [if_neg hfound] at h
      obtain ⟨heq1, heq2⟩ := Prod.mk.injEq .. ▸ (Option.some.injEq .. ▸ h)
      subst heq1
      refine ⟨ht, rfl, rfl, ?_, ?_, ?_⟩
      · rw [← heq2, hsearch_eq]
        rw [Bool.not_eq_true] at hfound
        rw [hfound]
      · rw [← heq2]
        simp
      · intro k2
        by_cases hk : k2 = key
        · subst hk
          rw [if_pos rfl, hsearch_eq]
          rw [← Option.not_isSome_iff_eq_none]
          exact hfound
        · rw [if_neg hk]

/-! Fuel adequacy: with fuel exceeding the number of stored items, the fueled
operations always succeed. -/

theorem HashTableChaining.totalItems_eq_n (t : HashTableChaining K V) (ht : t.Inv) :
    t.totalItems = t.n := (ht.2.2.1).symm

theorem getD_length_le_flatten {α : Type} : ∀ (bs : List (List α)) (i : Nat),
    (bs.getD i []).length ≤ bs.flatten.length := by
  intro bs
  induction bs with
  | nil => intro i; simp [List.getD]
  | cons hd tl ih =>
    intro i
    cases i with
    | zero => simp
    | succ j =>
      have := ih j
      simp only [List.getD_cons_succ, List.flatten_cons, List.length_append]
      omega

theorem insertListWith_succ
    (ins : HashTableChaining K V → K → V → Option (HashTableChaining K V)) (bnd : Nat)
    (Hins : ∀ (t : HashTableChaining K V) key value, t.Inv → t.totalItems ≤ bnd →
      ∃ t2, ins t key value = some t2 ∧ t2.Inv ∧ t2.totalItems ≤ t.totalItems + 1) :
    ∀ (L : List (K × V)) (t : HashTableChaining K V), t.Inv →
      t.totalItems + L.length ≤ bnd + 1 →
      ∃ t2, insertListWith ins t L = some t2 := by
  intro L
  induction L with
  | nil => intro t _ _; exact ⟨t, rfl⟩
  | cons kv rest ih =>
    intro t ht hle
    obtain ⟨tm, hins, hmInv, hmtot⟩ := Hins t kv.1 kv.2 ht (by
      simp only [List.length_cons] at hle
      omega)
    obtain ⟨t2, h2⟩ := ih tm hmInv (by
      simp only [List.length_cons] at hle
      omega)
    refine ⟨t2, ?_⟩
    simp only [insertListWith, hins, Option.bind_eq_bind, Option.some_bind]
    exact h2

theorem resizeWith_of_no_items
    (ins : HashTableChaining K V → K → V → Option (HashTableChaining K V))
    (t : HashTableChaining K V) (cap : Nat) (h : t.table.flatten = []) :
    resizeWith ins t cap = some (resizeBase t cap) := by
  rw [resizeWith, h]
  rfl

theorem resizeWith_succ
    (ins : HashTableChaining K V → K → V → Option (HashTableChaining K V)) (bnd : Nat)
    (Hins : ∀ (t : HashTableChaining K V) key value, t.Inv → t.totalItems ≤ bnd →
      ∃ t2, ins t key value = some t2 ∧ t2.Inv ∧ t2.totalItems ≤ t.totalItems + 1)
    (t : HashTableChaining K V) (cap : Nat) (ht : t.Inv)
    (hN : t.totalItems ≤ bnd + 1) :
    ∃ t2, resizeWith ins t cap = some t2 := by
  refine insertListWith_succ ins bnd Hins t.table.flatten (resizeBase t cap)
    (resizeBase_Inv t cap) ?_
  have hbase : (resizeBase t cap).totalItems = 0 := by
    show (List.replicate (next_power_of_two cap) ([] : List (K × V))).flatten.length = 0
    rw [flatten_replicate_nil]
    rfl
  rw [hbase]
  have hTi : t.totalItems = t.table.flatten.length := rfl
  omega

theorem HashTableChaining.insertF_succ :
    ∀ (fuel : Nat) (t : HashTableChaining K V) (key : K) (value : V), t.Inv →
      t.totalItems < fuel →
      ∃ t2, HashTableChaining.insertF fuel t key value = some t2 := by
  intro fuel
  induction fuel with
  | zero => intro t key value _ h; omega
  | succ f ih =>
    intro t key value ht hfuel
    by_cases hgrow : t.mlf_num * t.m < t.n * t.mlf_den
    · have hres : ∃ t1, resizeWith (HashTableChaining.insertF f) t (2 * t.m) = some t1 := by
        cases f with
        | zero =>
          have hN : t.totalItems = 0 := by omega
          have hnil : t.table.flatten = [] := List.length_eq_zero.mp hN
          exact ⟨resizeBase t (2 * t.m),
            resizeWith_of_no_items (HashTableChaining.insertF 0) t (2 * t.m) hnil⟩
        | succ f2 =>
          refine resizeWith_succ (HashTableChaining.insertF (f2 + 1)) f2 ?_ t (2 * t.m) ht
            (by omega)
          intro t3 key3 value3 ht3 htot3
          obtain ⟨t4, h4⟩ := ih t3 key3 value3 ht3 (by omega)
          obtain ⟨h4Inv, _, _, h4n, _⟩ :=
            HashTableChaining.insertF_spec (f2 + 1) t3 key3 value3 t4 ht3 h4
          refine ⟨t4, h4, h4Inv, ?_⟩
          rw [t4.totalItems_eq_n h4Inv, t3.totalItems_eq_n ht3, h4n]
          split <;> omega
      obtain ⟨t1, h1⟩ := hres
      refine ⟨t1.bucketInsert key value, ?_⟩
      simp only [HashTableChaining.insertF, if_pos hgrow, h1, Option.bind_eq_bind,
        Option.some_bind]
    · refine ⟨t.bucketInsert key value, ?_⟩
      simp only [HashTableChaining.insertF, if_neg hgrow, Option.bind_eq_bind,
        Option.some_bind]

theorem HashTableChaining.deleteF_succ :
    ∀ (fuel : Nat) (t : HashTableChaining K V) (key : K), t.Inv →
      t.totalItems < fuel →
      ∃ out, HashTableChaining.deleteF fuel t key = some out := by
  intro fuel t key ht hfuel
  cases fuel with
  | zero => omega
  | succ f =>
    by_cases hfound : (findValue (t.table.getD (t.index key) []) key).isSome
    · have hfoundP : (t.search key).isSome := hfound
      have ht1 : (t.bucketRemove key).Inv := t.bucketRemove_Inv key ht hfoundP
      by_cases hshrink : 8 < (t.bucketRemove key).m ∧
          5 * (t.bucketRemove key).n < (t.bucketRemove key).m
      · have hres : ∃ t3, resizeWith (HashTableChaining.insertF f) (t.bucketRemove key)
            ((t.bucketRemove key).m / 2) = some t3 := by
          have htot1 : (t.bucketRemove key).totalItems ≤ t.totalItems := by
            rw [(t.bucketRemove key).totalItems_eq_n ht1, t.totalItems_eq_n ht]
            show t.n - 1 ≤ t.n
            omega
          cases f with
          | zero =>
            have hN : (t.bucketRemove key).totalItems = 0 := by omega
            have hnil : (t.bucketRemove key).table.flatten = [] := List.length_eq_zero.mp hN
            exact ⟨_, resizeWith_of_no_items (HashTableChaining.insertF 0) _ _ hnil⟩
          | succ f2 =>
            refine resizeWith_succ (HashTableChaining.insertF (f2 + 1)) f2 ?_ _ _ ht1
              (by omega)
            intro t3 key3 value3 ht3 htot3
            obtain ⟨t4, h4⟩ := HashTableChaining.insertF_succ (f2 + 1) t3 key3 value3 ht3
              (by omega)
            obtain ⟨h4Inv, _, _, h4n, _⟩ :=
              HashTableChaining.insertF_spec (f2 + 1) t3 key3 value3 t4 ht3 h4
            refine ⟨t4, h4, h4Inv, ?_⟩
            rw [t4.totalItems_eq_n h4Inv, t3.totalItems_eq_n ht3, h4n]
            split <;> omega
        obtain ⟨t3, h3⟩ := hres
        refine ⟨(t3, true), ?_⟩
        simp only [HashTableChaining.deleteF, if_pos hfound, if_pos hshrink, h3, Option.map_some']
      · refine ⟨(t.bucketRemove key, true), ?_⟩
        simp only [HashTableChaining.deleteF, if_pos hfound, if_neg hshrink]
    · refine ⟨(t, false), ?_⟩
      simp only [HashTableChaining.deleteF, if_neg hfound]

/-! Exact capacity tracking: when the target capacity is already sized for the
item count, the re-insertion loop of `_resize` never grows the table again. -/

theorem insertListWith_no_resize (f : Nat) :
    ∀ (L : List (K × V)) (t t2 : HashTableChaining K V), t.Inv →
      insertListWith (HashTableChaining.insertF f) t L = some t2 →
      (t.n + L.length) * t.mlf_den ≤ t.mlf_num * t.m + t.mlf_den →
      t2.m = t.m := by
  intro L
  induction L with
  | nil =>
    intro t t2 _ h _
    cases h
    rfl
  | cons kv rest ih =>
    intro t t2 ht h hsized
    simp only [insertListWith, Option.bind_eq_bind, Option.bind_eq_some] at h
    obtain ⟨tm, hins, hrest⟩ := h
    cases f with
    | zero => cases hins
    | succ f2 =>
      have hnogrow : ¬(t.mlf_num * t.m < t.n * t.mlf_den) := by
        rw [Nat.not_lt]
        have hden : t.mlf_den ≤ (rest.length + 1) * t.mlf_den :=
          Nat.le_mul_of_pos_left t.mlf_den (by omega)
        have hexp : (t.n + (rest.length + 1)) * t.mlf_den =
            t.n * t.mlf_den + (rest.length + 1) * t.mlf_den := Nat.add_mul _ _ _
        simp only [List.length_cons] at hsized
        omega
      rw [HashTableChaining.insertF, if_neg hnogrow] at hins
      simp only [Option.bind_eq_bind, Option.some_bind, Option.some.injEq] at hins
      have hmEq : tm.m = t.m := by rw [← hins]; rfl
      have hmlf1 : tm.mlf_num = t.mlf_num := by rw [← hins]; rfl
      have hmlf2 : tm.mlf_den = t.mlf_den := by rw [← hins]; rfl
      have hmInv : tm.Inv := by
        rw [← hins]
        exact t.bucketInsert_Inv kv.1 kv.2 ht
      have hmn : tm.n ≤ t.n + 1 := by
        rw [← hins, t.bucketInsert_n kv.1 kv.2]
        split <;> omega
      have hcond : (tm.n + rest.length) * tm.mlf_den ≤ tm.mlf_num * tm.m + tm.mlf_den := by
        rw [hmlf1, hmlf2, hmEq]
        simp only [List.length_cons] at hsized
        calc (tm.n + rest.length) * t.mlf_den
            ≤ (t.n + (rest.length + 1)) * t.mlf_den :=
              Nat.mul_le_mul_right _ (by omega)
        _ ≤ t.mlf_num * t.m + t.mlf_den := hsized
      rw [ih tm t2 hmInv hrest hcond, hmEq]

theorem resizeWith_no_resize (f : Nat) (t t2 : HashTableChaining K V) (cap : Nat)
    (ht : t.Inv) (h : resizeWith (HashTableChaining.insertF f) t cap = some t2)
    (hsized : t.n * t.mlf_den ≤ t.mlf_num * next_power_of_two cap + t.mlf_den) :
    t2.m = next_power_of_two cap := by
  have hlen : t.table.flatten.length = t.n := ht.2.2.1.symm
  have := insertListWith_no_resize f t.table.flatten (resizeBase t cap) t2
    (resizeBase_Inv t cap) h ?_
  · exact this
  · show ((0 : Nat) + t.table.flatten.length) * t.mlf_den ≤
      t.mlf_num * next_power_of_two cap + t.mlf_den
    rw [Nat.zero_add, hlen]
    exact hsized

/-- `_resize` itself (the entry point used by `insert` to grow and by `delete`
to shrink): re-insertion goes through `insert` at the given fuel. -/
def HashTableChaining.resizeF (fuel : Nat) (t : HashTableChaining K V) (cap : Nat) :
    Option (HashTableChaining K V) :=
  resizeWith (HashTableChaining.insertF fuel) t cap

/-! The constructed table satisfies the invariant and is empty. -/

theorem mkHashTable_Inv (initial_capacity mlf_num mlf_den : Nat)
    (hashFn : K → Nat) (stream : Nat → Nat × Nat) :
    (mkHashTable (K := K) V initial_capacity mlf_num mlf_den hashFn stream).Inv := by
  refine ⟨by simp [mkHashTable], next_power_of_two_pow2 _, ?_, ?_, ?_⟩
  · show 0 = _
    rw [show (mkHashTable (K := K) V initial_capacity mlf_num mlf_den hashFn stream).table =
      List.replicate (next_power_of_two
        (if initial_capacity < 2 then 2 else initial_capacity)) [] from rfl]
    rw [flatten_replicate_nil]
    rfl
  · intro i hi kv hm
    rw [show (mkHashTable (K := K) V initial_capacity mlf_num mlf_den hashFn stream).table =
      List.replicate (next_power_of_two
        (if initial_capacity < 2 then 2 else initial_capacity)) [] from rfl,
      getD_replicate_nil] at hm
    cases hm
  · intro i hi
    rw [show (mkHashTable (K := K) V initial_capacity mlf_num mlf_den hashFn stream).table =
      List.replicate (next_power_of_two
        (if initial_capacity < 2 then 2 else initial_capacity)) [] from rfl,
      getD_replicate_nil]
    simp

theorem mkHashTable_search (initial_capacity mlf_num mlf_den : Nat)
    (hashFn : K → Nat) (stream : Nat → Nat × Nat) (k2 : K) :
    (mkHashTable (K := K) V initial_capacity mlf_num mlf_den hashFn stream).search k2 = none := by
  show findValue ((List.replicate (next_power_of_two
    (if initial_capacity < 2 then 2 else initial_capacity)) []).getD _ []) k2 = none
  rw [getD_replicate_nil]
  rfl

/-! Operation sequences and their observations. -/

/-- One operation applied to the table: insert, delete or search. -/
inductive HOp (K V : Type) where
  | ins : K → V → HOp K V
  | del : K → HOp K V
  | sea : K → HOp K V
deriving DecidableEq

/-- What a caller observes from one operation: the entry count after an insert,
the boolean result and entry count after a delete, the result of a search. -/
inductive HObs (V : Type) where
  | oIns : Nat → HObs V
  | oDel : Bool → Nat → HObs V
  | oSea : Option V → HObs V
deriving DecidableEq

/-- One table operation together with its observation.  The fuel
`totalItems + 2` is proved sufficient (`insertF_succ` / `deleteF_succ`). -/
def applyOpObs (t : HashTableChaining K V) : HOp K V → Option (HashTableChaining K V × HObs V)
  | HOp.ins key value =>
    (HashTableChaining.insertF (t.totalItems + 2) t key value).map fun t2 => (t2, HObs.oIns t2.n)
  | HOp.del key =>
    (HashTableChaining.deleteF (t.totalItems + 2) t key).map fun r => (r.1, HObs.oDel r.2 r.1.n)
  | HOp.sea key => some (t, HObs.oSea (t.search key))

def applyOp (t : HashTableChaining K V) (op : HOp K V) : Option (HashTableChaining K V) :=
  (applyOpObs t op).map Prod.fst

/-- Run a sequence of operations, returning the final table. -/
def runOps : HashTableChaining K V → List (HOp K V) → Option (HashTableChaining K V)
  | t, [] => some t
  | t, op :: rest => (applyOp t op).bind fun t2 => runOps t2 rest

/-- Run a sequence of operations, returning the observation trace. -/
def runObs : HashTableChaining K V → List (HOp K V) → Option (List (HObs V))
  | _, [] => some []
  | t, op :: rest =>
    (applyOpObs t op).bind fun r => (runObs r.1 rest).map fun os => r.2 :: os

/-! The reference model for claim C1, modelled from the spec: a plain
association list treated as a finite map ("reference associative-array model"),
with point update, point removal and lookup, applying the same operations in
the same order. -/

/-- Modelled from the spec: lookup in the reference associative array. -/
def modelLookup : List (K × V) → K → Option V
  | [], _ => none
  | kv :: rest, key => if kv.1 = key then some kv.2 else modelLookup rest key

/-- Modelled from the spec: update-or-add in the reference associative array. -/
def modelInsert : List (K × V) → K → V → List (K × V)
  | [], key, value => [(key, value)]
  | kv :: rest, key, value =>
    if kv.1 = key then (key, value) :: rest else kv :: modelInsert rest key value

/-- Modelled from the spec: removal (with a did-remove flag) in the reference
associative array. -/
def modelDelete : List (K × V) → K → List (K × V) × Bool
  | [], _ => ([], false)
  | kv :: rest, key =>
    if kv.1 = key then (rest, true)
    else
      let r := modelDelete rest key
      (kv :: r.1, r.2)

def modelApply (mdl : List (K × V)) : HOp K V → List (K × V) × HObs V
  | HOp.ins key value =>
    let m2 := modelInsert mdl key value
    (m2, HObs.oIns m2.length)
  | HOp.del key =>
    let r := modelDelete mdl key
    (r.1, HObs.oDel r.2 r.1.length)
  | HOp.sea key => (mdl, HObs.oSea (modelLookup mdl key))

def runModel : List (K × V) → List (HOp K V) → List (HObs V)
  | _, [] => []
  | mdl, op :: rest =>
    let r := modelApply mdl op
    r.2 :: runModel r.1 rest

/-! The reference model coincides with the chain-level operations, so the chain
lemmas transfer to it. -/

theorem modelLookup_eq_findValue : ∀ (mdl : List (K × V)) (key : K),
    modelLookup mdl key = findValue mdl key := by
  intro mdl key
  induction mdl with
  | nil => rfl
  | cons kv rest ih =>
    obtain ⟨k, v⟩ := kv
    by_cases hk : k = key
    · simp [modelLookup, findValue, hk]
    · simp [modelLookup, findValue, hk, ih]

theorem modelInsert_eq_chainInsert : ∀ (mdl : List (K × V)) (key : K) (value : V),
    modelInsert mdl key value = chainInsert mdl key value := by
  intro mdl key value
  induction mdl with
  | nil => rfl
  | cons kv rest ih =>
    obtain ⟨k, v⟩ := kv
    by_cases hk : k = key
    · simp [modelInsert, chainInsert, hk]
    · simp [modelInsert, chainInsert, hk, ih]

theorem chainRemove_of_not_found : ∀ (l : List (K × V)) (key : K),
    findValue l key = none → chainRemove l key = l := by
  intro l key
  induction l with
  | nil => intro _; rfl
  | cons kv rest ih =>
    intro h
    obtain ⟨k, v⟩ := kv
    by_cases hk : k = key
    · simp [findValue, hk] at h
    · simp only [findValue, if_neg hk] at h
      simp [chainRemove, hk, ih h]

theorem modelDelete_eq : ∀ (mdl : List (K × V)) (key : K),
    modelDelete mdl key = (chainRemove mdl key, (findValue mdl key).isSome) := by
  intro mdl key
  induction mdl with
  | nil => rfl
  | cons kv rest ih =>
    obtain ⟨k, v⟩ := kv
    by_cases hk : k = key
    · simp [modelDelete, chainRemove, findValue, hk]
    · simp [modelDelete, chainRemove, findValue, hk, ih]

/-- The refinement relation for C1: invariant, same lookup function, same entry
count, and distinct model keys. -/
def SimR (t : HashTableChaining K V) (mdl : List (K × V)) : Prop :=
  t.Inv ∧ (∀ k2, t.search k2 = findValue mdl k2) ∧ t.n = mdl.length ∧
  ((mdl.map Prod.fst).Nodup)

theorem simStep (t : HashTableChaining K V) (mdl : List (K × V)) (hsim : SimR t mdl)
    (op : HOp K V) :
    ∃ t2, applyOpObs t op = some (t2, (modelApply mdl op).2) ∧
      SimR t2 (modelApply mdl op).1 := by
  obtain ⟨ht, hlk, hn, hnd⟩ := hsim
  cases op with
  | ins key value =>
    obtain ⟨t2, h2⟩ := HashTableChaining.insertF_succ (t.totalItems + 2) t key value ht
      (by omega)
    obtain ⟨h2Inv, _, _, h2n, h2search⟩ :=
      HashTableChaining.insertF_spec _ t key value t2 ht h2
    have hlen : (modelInsert mdl key value).length =
        mdl.length + (if (t.search key).isSome then 0 else 1) := by
      rw [modelInsert_eq_chainInsert, chainInsert_length, hlk key]
    have hcnt : t2.n = (modelInsert mdl key value).length := by
      rw [h2n, hlen, hn]
    refine ⟨t2, ?_, h2Inv, ?_, ?_, ?_⟩
    · simp only [applyOpObs, h2, Option.map_some', modelApply, hcnt]
    · intro k2
      rw [h2search k2]
      show updFn t.search key value k2 = findValue (modelApply mdl (HOp.ins key value)).1 k2
      simp only [modelApply, modelInsert_eq_chainInsert]
      show (if k2 = key then some value else t.search k2) = _
      by_cases hk : k2 = key
      · rw [if_pos hk, hk, findValue_chainInsert_self]
      · rw [if_neg hk, findValue_chainInsert_ne _ _ _ _ hk, hlk k2]
    · show t2.n = (modelApply mdl (HOp.ins key value)).1.length
      simpa [modelApply] using hcnt
    · show ((modelApply mdl (HOp.ins key value)).1.map Prod.fst).Nodup
      simp only [modelApply, modelInsert_eq_chainInsert]
      exact chainInsert_keys_nodup _ _ _ hnd
  | del key =>
    obtain ⟨r, hr⟩ := HashTableChaining.deleteF_succ (t.totalItems + 2) t key ht (by omega)
    obtain ⟨t2, bb⟩ := r
    obtain ⟨h2Inv, _, _, h2b, h2n, h2search⟩ :=
      HashTableChaining.deleteF_spec _ t key t2 bb ht hr
    have hflag : (t.search key).isSome = (findValue mdl key).isSome := by rw [hlk key]
    have hcnt : t2.n = (chainRemove mdl key).length := by
      by_cases hf : (findValue mdl key).isSome
      · have := chainRemove_length mdl key hf
        rw [h2n, h2b, hflag, if_pos hf, hn]
        omega
      · rw [chainRemove_of_not_found mdl key (by
          rw [← Option.not_isSome_iff_eq_none]
          exact hf)]
        rw [h2n, h2b, hflag]
        rw [Bool.not_eq_true] at hf
        rw [hf]
        simpa using hn
    refine ⟨t2, ?_, h2Inv, ?_, ?_, ?_⟩
    · simp only [applyOpObs, hr, Option.map_some', modelApply, modelDelete_eq]
      rw [h2b, hflag, hcnt]
    · intro k2
      rw [h2search k2]
      show _ = findValue (modelApply mdl (HOp.del key)).1 k2
      simp only [modelApply, modelDelete_eq]
      by_cases hk : k2 = key
      · rw [if_pos hk, hk]
        by_cases hf : (findValue mdl key).isSome
        · exact (findValue_chainRemove_self mdl key hnd).symm
        · have hfn : findValue mdl key = none := by
            rw [← Option.not_isSome_iff_eq_none]
            exact hf
          rw [chainRemove_of_not_found mdl key hfn, hfn]
      · rw [if_neg hk, findValue_chainRemove_ne _ _ _ hk, hlk k2]
    · show t2.n = (modelApply mdl (HOp.del key)).1.length
      simpa [modelApply, modelDelete_eq] using hcnt
    · show ((modelApply mdl (HOp.del key)).1.map Prod.fst).Nodup
      simp only [modelApply, modelDelete_eq]
      exact hnd.sublist ((chainRemove_sublist mdl key).map Prod.fst)
  | sea key =>
    refine ⟨t, ?_, ht, hlk, hn, hnd⟩
    simp only [applyOpObs, modelApply, modelLookup_eq_findValue, hlk key]

theorem simRun : ∀ (ops : List (HOp K V)) (t : HashTableChaining K V) (mdl : List (K × V)),
    SimR t mdl → runObs t ops = some (runModel mdl ops) := by
  intro ops
  induction ops with
  | nil => intro t mdl _; rfl
  | cons op rest ih =>
    intro t mdl hsim
    obtain ⟨t2, hstep, hsim2⟩ := simStep t mdl hsim op
    simp only [runObs, hstep, Option.bind_eq_bind, Option.some_bind, runModel]
    rw [ih t2 (modelApply mdl op).1 hsim2]
    rfl

theorem findValue_some_mem : ∀ (l : List (K × V)) (key : K) (v : V),
    findValue l key = some v → (key, v) ∈ l := by
  intro l key v
  induction l with
  | nil => intro h; cases h
  | cons kv rest ih =>
    intro h
    obtain ⟨k, v2⟩ := kv
    by_cases hk : k = key
    · rw [findValue, if_pos hk] at h
      cases h
      rw [hk]
      exact List.mem_cons_self _ _
    · rw [findValue, if_neg hk] at h
      exact List.mem_cons_of_mem _ (ih h)

theorem HashTableChaining.search_none_iff (t : HashTableChaining K V) (ht : t.Inv)
    (key : K) : t.search key = none ↔ ∀ v, (key, v) ∉ t.table.flatten := by
  constructor
  · intro h v hmem
    obtain ⟨bucket, hbmem, hkvmem⟩ := List.mem_flatten.mp hmem
    obtain ⟨i, hilt, hgi⟩ := List.mem_iff_getElem.mp hbmem
    have hgd : t.table.getD i [] = bucket := by
      rw [List.getD_eq_getElem?_getD, List.getElem?_eq_getElem hilt, hgi]
      rfl
    have hidx : t.index key = i := by
      have := t.res_all ht i (key, v) (by rw [hgd]; exact hkvmem)
      exact this
    have : (t.search key).isSome := by
      rw [HashTableChaining.search, hidx, hgd, findValue_isSome_iff]
      exact List.mem_map.mpr ⟨(key, v), hkvmem, rfl⟩
    rw [h] at this
    cases this
  · intro h
    rw [← Option.not_isSome_iff_eq_none]
    intro hsome
    obtain ⟨v, hv⟩ := Option.isSome_iff_exists.mp hsome
    have hmem : (key, v) ∈ t.table.getD (t.index key) [] := findValue_some_mem _ _ _ hv
    have hlt := t.index_lt ht key
    refine h v (List.mem_flatten.mpr ⟨t.table.getD (t.index key) [], ?_, hmem⟩)
    rw [List.getD_eq_getElem?_getD, List.getElem?_eq_getElem (by omega)]
    exact List.getElem_mem _

/-- C1.  For every finite sequence of insert / delete / search operations run
from a freshly constructed table (any capacity, any max-load-factor rational,
any hash function, any random stream, hence any seed), the observation trace —
search results, delete booleans, and the entry count `n` after each mutation —
equals that of the reference associative-array model run on the same
operations in the same order; in particular the fuel never runs out. -/
theorem c1_hashtable_refines_assoc_model (initial_capacity mlf_num mlf_den : Nat)
    (hashFn : K → Nat) (stream : Nat → Nat × Nat) (ops : List (HOp K V)) :
    runObs (mkHashTable V initial_capacity mlf_num mlf_den hashFn stream) ops =
      some (runModel [] ops) := by
  refine simRun ops _ [] ⟨mkHashTable_Inv _ _ _ _ _, ?_, rfl, by simp⟩
  intro k2
  rw [mkHashTable_search]
  rfl

/-- C5.  Inserting a key that is already present overwrites its stored value
and leaves the entry count `n` unchanged; a subsequent search returns the new
value. -/
theorem c5_insert_existing_key_updates (t : HashTableChaining K V) (key : K)
    (w value : V) (ht : t.Inv) (hpresent : t.search key = some w) :
    ∃ t2, HashTableChaining.insertF (t.totalItems + 2) t key value = some t2 ∧
      t2.n = t.n ∧ t2.search key = some value := by
  obtain ⟨t2, h2⟩ := HashTableChaining.insertF_succ (t.totalItems + 2) t key value ht
    (by omega)
  obtain ⟨h2Inv, _, _, h2n, h2search⟩ :=
    HashTableChaining.insertF_spec _ t key value t2 ht h2
  refine ⟨t2, h2, ?_, ?_⟩
  · rw [h2n, hpresent]
    rfl
  · rw [h2search key]
    show (if key = key then some value else _) = some value
    rw [if_pos rfl]

/-- C6.  `_resize` (to any target capacity, with fuel covering the stored
items) succeeds, preserves every stored key's value as observed by `search`,
preserves the entry count, and — whenever the target capacity is already sized
for the item count (`n / M <= maxLoadFactor + 1/M`, in exact arithmetic
`n * den <= num * M + den`), which holds for the grow and shrink calls the
table actually makes — the re-insertion pass triggers no nested resize, so the
new capacity is exactly the requested power of two. -/
theorem c6_resize_preserves_membership (t : HashTableChaining K V) (cap : Nat)
    (ht : t.Inv) :
    ∃ t2, HashTableChaining.resizeF (t.totalItems + 1) t cap = some t2 ∧
      (∀ key, t2.search key = t.search key) ∧ t2.n = t.n ∧
      (t.n * t.mlf_den ≤ t.mlf_num * next_power_of_two cap + t.mlf_den →
        t2.m = next_power_of_two cap) := by
  have hins : ∀ (t3 : HashTableChaining K V) key3 value3, t3.Inv →
      t3.totalItems ≤ t.totalItems →
      ∃ t4, HashTableChaining.insertF (t.totalItems + 1) t3 key3 value3 = some t4 ∧
        t4.Inv ∧ t4.totalItems ≤ t3.totalItems + 1 := by
    intro t3 key3 value3 ht3 htot3
    obtain ⟨t4, h4⟩ := HashTableChaining.insertF_succ (t.totalItems + 1) t3 key3 value3 ht3
      (by omega)
    obtain ⟨h4Inv, _, _, h4n, _⟩ :=
      HashTableChaining.insertF_spec _ t3 key3 value3 t4 ht3 h4
    refine ⟨t4, h4, h4Inv, ?_⟩
    rw [t4.totalItems_eq_n h4Inv, t3.totalItems_eq_n ht3, h4n]
    split <;> omega
  obtain ⟨t2, h2⟩ := resizeWith_succ (HashTableChaining.insertF (t.totalItems + 1))
    t.totalItems hins t cap ht (by omega)
  obtain ⟨h2Inv, _, _, h2n, h2search⟩ := resizeWith_spec (HashTableChaining.insertF
    (t.totalItems + 1)) (HashTableChaining.insertF_spec (t.totalItems + 1)) t cap t2 ht h2
  exact ⟨t2, h2, h2search, h2n, fun hsized => resizeWith_no_resize _ t t2 cap ht h2 hsized⟩

/-- C9.  `search` returns the not-found sentinel exactly when no pair with an
equal key is stored anywhere in the table, and `delete` (which always succeeds
at this fuel, never raising) returns `true` exactly when such a pair was
stored. -/
theorem c9_absence_is_signalled (t : HashTableChaining K V) (key : K) (ht : t.Inv) :
    (t.search key = none ↔ ∀ v, (key, v) ∉ t.table.flatten) ∧
    ∃ t2, HashTableChaining.deleteF (t.totalItems + 2) t key =
      some (t2, (t.search key).isSome) := by
  refine ⟨t.search_none_iff ht key, ?_⟩
  obtain ⟨r, hr⟩ := HashTableChaining.deleteF_succ (t.totalItems + 2) t key ht (by omega)
  obtain ⟨t2, bb⟩ := r
  obtain ⟨_, _, _, h2b, _, _⟩ := HashTableChaining.deleteF_spec _ t key t2 bb ht hr
  exact ⟨t2, by rw [← h2b]; exact hr⟩

/-! Load-factor invariants for the default parameters (max_load_factor = 3/4). -/

theorem pow2_half (m : Nat) (h : IsPow2 m) (hm : 2 ≤ m) :
    m = 2 * (m / 2) ∧ IsPow2 (m / 2) := by
  obtain ⟨k, rfl⟩ := h
  cases k with
  | zero => simp at hm
  | succ k2 =>
    have h2 : (2 : Nat) ^ (k2 + 1) = 2 * 2 ^ k2 := by
      rw [pow_succ]
      ring
    constructor
    · rw [h2]
      omega
    · refine ⟨k2, ?_⟩
      rw [h2]
      omega

theorem pow2_double (m : Nat) (h : IsPow2 m) : IsPow2 (2 * m) := by
  obtain ⟨k, rfl⟩ := h
  exact ⟨k + 1, by ring⟩

/-- Capacity evolution of one `insert` under the default load factor 3/4 and
the bound `4n ≤ 3m + 4` (which every reachable state satisfies): the table
grows to exactly `2m` when the pre-insert load factor exceeds 3/4 and is
untouched otherwise. -/
theorem HashTableChaining.insertF_default (fuel : Nat) (t t2 : HashTableChaining K V)
    (key : K) (value : V) (hInv : t.Inv) (h3 : t.mlf_num = 3) (h4 : t.mlf_den = 4)
    (hload : 4 * t.n ≤ 3 * t.m + 4)
    (h : HashTableChaining.insertF fuel t key value = some t2) :
    t2.m = (if 3 * t.m < t.n * 4 then 2 * t.m else t.m) := by
  cases fuel with
  | zero => cases h
  | succ f =>
    simp only [HashTableChaining.insertF, Option.bind_eq_bind] at h
    by_cases hgrow : t.mlf_num * t.m < t.n * t.mlf_den
    · rw [if_pos hgrow] at h
      rcases Option.bind_eq_some.mp h with ⟨t1, h1, hb⟩
      simp only [Option.some.injEq] at hb
      have hgrow2 : 3 * t.m < t.n * 4 := by
        rw [h3, h4] at hgrow
        exact hgrow
      have hnpt : next_power_of_two (2 * t.m) = 2 * t.m :=
        next_power_of_two_eq_self _ (pow2_double t.m hInv.2.1)
      have hsized : t.n * t.mlf_den ≤ t.mlf_num * next_power_of_two (2 * t.m) + t.mlf_den := by
        rw [h3, h4, hnpt]
        omega
      have hm1 : t1.m = 2 * t.m := by
        rw [resizeWith_no_resize f t t1 (2 * t.m) hInv h1 hsized, hnpt]
      rw [if_pos hgrow2, ← hb]
      show t1.m = 2 * t.m
      exact hm1
    · rw [if_neg hgrow] at h
      simp only [Option.some_bind, Option.some.injEq] at h
      have hgrow2 : ¬(3 * t.m < t.n * 4) := by
        rw [h3, h4] at hgrow
        exact hgrow
      rw [if_neg hgrow2, ← h]
      rfl

/-- Capacity evolution of one `delete` under the default parameters: the table
shrinks to exactly `m / 2` when the deletion succeeds and leaves the load
factor below 1/5 with `m > 8`, and is untouched otherwise. -/
theorem HashTableChaining.deleteF_default (fuel : Nat) (t t2 : HashTableChaining K V)
    (key : K) (bb : Bool) (hInv : t.Inv) (h3 : t.mlf_num = 3) (h4 : t.mlf_den = 4)
    (hm2 : 2 ≤ t.m)
    (h : HashTableChaining.deleteF fuel t key = some (t2, bb)) :
    t2.m = (if (t.search key).isSome ∧ 8 < t.m ∧ 5 * (t.n - 1) < t.m
      then t.m / 2 else t.m) := by
  cases fuel with
  | zero => cases h
  | succ f =>
    have hsearch_eq : (t.search key) = findValue (t.table.getD (t.index key) []) key := rfl
    simp only [HashTableChaining.deleteF] at h
    by_cases hfound : (findValue (t.table.getD (t.index key) []) key).isSome
    · rw [if_pos hfound] at h
      have hfoundP : (t.search key).isSome := by rw [hsearch_eq]; exact hfound
      have ht1 : (t.bucketRemove key).Inv := t.bucketRemove_Inv key hInv hfoundP
      by_cases hshrink : 8 < (t.bucketRemove key).m ∧
          5 * (t.bucketRemove key).n < (t.bucketRemove key).m
      · rw [if_pos hshrink] at h
        obtain ⟨t3, hres, heq⟩ := Option.map_eq_some'.mp h
        obtain ⟨heq1, heq2⟩ := Prod.mk.injEq .. ▸ heq
        subst heq1
        have hshrink2 : 8 < t.m ∧ 5 * (t.n - 1) < t.m := hshrink
        have hhalf := pow2_half t.m hInv.2.1 hm2
        have hnpt : next_power_of_two (t.m / 2) = t.m / 2 :=
          next_power_of_two_eq_self _ hhalf.2
        have hsized : (t.bucketRemove key).n * (t.bucketRemove key).mlf_den ≤
            (t.bucketRemove key).mlf_num *
              next_power_of_two ((t.bucketRemove key).m / 2) +
            (t.bucketRemove key).mlf_den := by
          show (t.n - 1) * t.mlf_den ≤ t.mlf_num * next_power_of_two (t.m / 2) + t.mlf_den
          rw [h3, h4, hnpt]
          omega
        have hm3 : t3.m = next_power_of_two ((t.bucketRemove key).m / 2) :=
          resizeWith_no_resize f (t.bucketRemove key) t3 _ ht1 hres hsized
        rw [if_pos ⟨hfoundP, hshrink2⟩]
        rw [hm3]
        show next_power_of_two (t.m / 2) = t.m / 2
        exact hnpt
      · rw [if_neg hshrink] at h
        obtain ⟨heq1, heq2⟩ := Prod.mk.injEq .. ▸ (Option.some.injEq .. ▸ h)
        subst heq1
        rw [if_neg (by
          intro hc
          exact hshrink ⟨hc.2.1, hc.2.2⟩)]
        rfl
    · rw [if_neg hfound] at h
      obtain ⟨heq1, heq2⟩ := Prod.mk.injEq .. ▸ (Option.some.injEq .. ▸ h)
      subst heq1
      rw [if_neg (by
        intro hc
        rw [hsearch_eq] at hc
        exact hfound hc.1)]

/-- Invariant of every table reachable with the default `max_load_factor` 0.75:
structural invariant, the load-factor parameters (3, 4), capacity at least 2,
and the post-insert load bound `4n ≤ 3m + 4` (that is, `n/m ≤ 3/4 + 1/m`). -/
def DefaultInvA (t : HashTableChaining K V) : Prop :=
  t.Inv ∧ t.mlf_num = 3 ∧ t.mlf_den = 4 ∧ 2 ≤ t.m ∧ 4 * t.n ≤ 3 * t.m + 4

/-- `DefaultInvA` plus the shrink bound `n/m ≥ 1/5` for capacities above 8,
which holds when the table additionally starts with capacity at most 8. -/
def DefaultInvB (t : HashTableChaining K V) : Prop :=
  DefaultInvA t ∧ (8 < t.m → t.m ≤ 5 * t.n)

theorem applyOp_DefaultInvA (t : HashTableChaining K V) (op : HOp K V)
    (t2 : HashTableChaining K V) (hA : DefaultInvA t) (h : applyOp t op = some t2) :
    DefaultInvA t2 := by
  obtain ⟨hInv, h3, h4, hm2, hload⟩ := hA
  cases op with
  | ins key value =>
    simp only [applyOp, applyOpObs, Option.map_map] at h
    obtain ⟨t4, h5, h6⟩ := Option.map_eq_some'.mp h
    have h7 : t4 = t2 := h6
    subst h7
    obtain ⟨h2Inv, h2mlf1, h2mlf2, h2n, _⟩ :=
      HashTableChaining.insertF_spec _ t key value t4 hInv h5
    have hmchar := HashTableChaining.insertF_default _ t t4 key value hInv h3 h4 hload h5
    refine ⟨h2Inv, by omega, by omega, ?_, ?_⟩
    · rw [hmchar]
      split <;> omega
    · rw [hmchar, h2n]
      by_cases hgrow : 3 * t.m < t.n * 4
      · rw [if_pos hgrow]
        split <;> omega
      · rw [if_neg hgrow]
        split <;> omega
  | del key =>
    simp only [applyOp, applyOpObs, Option.map_map] at h
    obtain ⟨r, h5, h6⟩ := Option.map_eq_some'.mp h
    obtain ⟨t4, bb⟩ := r
    have h7 : t4 = t2 := h6
    subst h7
    obtain ⟨h2Inv, h2mlf1, h2mlf2, h2b, h2n, _⟩ :=
      HashTableChaining.deleteF_spec _ t key t4 bb hInv h5
    have hmchar := HashTableChaining.deleteF_default _ t t4 key bb hInv h3 h4 hm2 h5
    refine ⟨h2Inv, by omega, by omega, ?_, ?_⟩
    · rw [hmchar]
      split
      · rename_i hc
        have hhalf := pow2_half t.m hInv.2.1 hm2
        omega
      · omega
    · rw [hmchar, h2n]
      by_cases hfound : (t.search key).isSome
      · rw [h2b, if_pos hfound]
        split
        · rename_i hc
          have hhalf := pow2_half t.m hInv.2.1 hm2
          omega
        · omega
      · rw [h2b]
        rw [Bool.not_eq_true] at hfound
        rw [hfound]
        simp only [Bool.false_eq_true, false_and, if_false]
        omega
  | sea key =>
    simp only [applyOp, applyOpObs, Option.map_some', Option.some.injEq] at h
    rw [← h]
    exact ⟨hInv, h3, h4, hm2, hload⟩

theorem applyOp_DefaultInvB (t : HashTableChaining K V) (op : HOp K V)
    (t2 : HashTableChaining K V) (hB : DefaultInvB t) (h : applyOp t op = some t2) :
    DefaultInvB t2 := by
  obtain ⟨hA, hshr⟩ := hB
  refine ⟨applyOp_DefaultInvA t op t2 hA h, ?_⟩
  obtain ⟨hInv, h3, h4, hm2, hload⟩ := hA
  cases op with
  | ins key value =>
    simp only [applyOp, applyOpObs, Option.map_map] at h
    obtain ⟨t4, h5, h6⟩ := Option.map_eq_some'.mp h
    have h7 : t4 = t2 := h6
    subst h7
    obtain ⟨_, _, _, h2n, _⟩ :=
      HashTableChaining.insertF_spec _ t key value t4 hInv h5
    have hmchar := HashTableChaining.insertF_default _ t t4 key value hInv h3 h4 hload h5
    rw [hmchar, h2n]
    by_cases hgrow : 3 * t.m < t.n * 4
    · rw [if_pos hgrow]
      intro _
      split <;> omega
    · rw [if_neg hgrow]
      intro hm8
      have := hshr hm8
      split <;> omega
  | del key =>
    simp only [applyOp, applyOpObs, Option.map_map] at h
    obtain ⟨r, h5, h6⟩ := Option.map_eq_some'.mp h
    obtain ⟨t4, bb⟩ := r
    have h7 : t4 = t2 := h6
    subst h7
    obtain ⟨_, _, _, h2b, h2n, _⟩ :=
      HashTableChaining.deleteF_spec _ t key t4 bb hInv h5
    have hmchar := HashTableChaining.deleteF_default _ t t4 key bb hInv h3 h4 hm2 h5
    rw [hmchar, h2n]
    by_cases hfound : (t.search key).isSome
    · rw [h2b, if_pos hfound]
      by_cases hsh : 8 < t.m ∧ 5 * (t.n - 1) < t.m
      · rw [if_pos ⟨hfound, hsh⟩]
        intro hm8
        have hhalf := pow2_half t.m hInv.2.1 hm2
        have := hshr (by omega)
        omega
      · rw [if_neg (by
          intro hc
          exact hsh hc.2)]
        intro hm8
        have := hshr hm8
        omega
    · rw [h2b]
      rw [Bool.not_eq_true] at hfound
      rw [hfound]
      simp only [Bool.false_eq_true, false_and, if_false]
      intro hm8
      have := hshr hm8
      omega
  | sea key =>
    simp only [applyOp, applyOpObs, Option.map_some', Option.some.injEq] at h
    rw [← h]
    exact hshr

theorem runOps_DefaultInvA : ∀ (ops : List (HOp K V)) (t t2 : HashTableChaining K V),
    DefaultInvA t → runOps t ops = some t2 → DefaultInvA t2 := by
  intro ops
  induction ops with
  | nil =>
    intro t t2 hA h
    cases h
    exact hA
  | cons op rest ih =>
    intro t t2 hA h
    simp only [runOps, Option.bind_eq_bind, Option.bind_eq_some] at h
    obtain ⟨tm, h1, h2⟩ := h
    exact ih tm t2 (applyOp_DefaultInvA t op tm hA h1) h2

theorem runOps_DefaultInvB : ∀ (ops : List (HOp K V)) (t t2 : HashTableChaining K V),
    DefaultInvB t → runOps t ops = some t2 → DefaultInvB t2 := by
  intro ops
  induction ops with
  | nil =>
    intro t t2 hB h
    cases h
    exact hB
  | cons op rest ih =>
    intro t t2 hB h
    simp only [runOps, Option.bind_eq_bind, Option.bind_eq_some] at h
    obtain ⟨tm, h1, h2⟩ := h
    exact ih tm t2 (applyOp_DefaultInvB t op tm hB h1) h2

theorem applyOp_Inv (t : HashTableChaining K V) (op : HOp K V)
    (t2 : HashTableChaining K V) (hInv : t.Inv) (h : applyOp t op = some t2) : t2.Inv := by
  cases op with
  | ins key value =>
    simp only [applyOp, applyOpObs, Option.map_map] at h
    obtain ⟨t4, h5, h6⟩ := Option.map_eq_some'.mp h
    have h7 : t4 = t2 := h6
    subst h7
    exact (HashTableChaining.insertF_spec _ t key value t4 hInv h5).1
  | del key =>
    simp only [applyOp, applyOpObs, Option.map_map] at h
    obtain ⟨r, h5, h6⟩ := Option.map_eq_some'.mp h
    obtain ⟨t4, bb⟩ := r
    have h7 : t4 = t2 := h6
    subst h7
    exact (HashTableChaining.deleteF_spec _ t key t4 bb hInv h5).1
  | sea key =>
    simp only [applyOp, applyOpObs, Option.map_some', Option.some.injEq] at h
    rw [← h]
    exact hInv

theorem runOps_Inv : ∀ (ops : List (HOp K V)) (t t2 : HashTableChaining K V),
    t.Inv → runOps t ops = some t2 → t2.Inv := by
  intro ops
  induction ops with
  | nil =>
    intro t t2 hInv h
    cases h
    exact hInv
  | cons op rest ih =>
    intro t t2 hInv h
    simp only [runOps, Option.bind_eq_bind, Option.bind_eq_some] at h
    obtain ⟨tm, h1, h2⟩ := h
    exact ih tm t2 (applyOp_Inv t op tm hInv h1) h2

theorem mkHashTable_DefaultInvA (initial_capacity : Nat) (hashFn : K → Nat)
    (stream : Nat → Nat × Nat) :
    DefaultInvA (mkHashTable (K := K) V initial_capacity 3 4 hashFn stream) := by
  refine ⟨mkHashTable_Inv _ _ _ _ _, rfl, rfl, ?_, ?_⟩
  · show 2 ≤ next_power_of_two (if initial_capacity < 2 then 2 else initial_capacity)
    split
    · have := next_power_of_two_ge 2
      omega
    · rename_i hc
      have := next_power_of_two_ge initial_capacity
      omega
  · show 4 * 0 ≤ 3 * _ + 4
    omega

theorem mkHashTable_DefaultInvB (initial_capacity : Nat) (hashFn : K → Nat)
    (stream : Nat → Nat × Nat) (hcap : initial_capacity ≤ 8) :
    DefaultInvB (mkHashTable (K := K) V initial_capacity 3 4 hashFn stream) := by
  refine ⟨mkHashTable_DefaultInvA _ _ _, ?_⟩
  intro h8
  exfalso
  have hle : next_power_of_two (if initial_capacity < 2 then 2 else initial_capacity) ≤ 8 := by
    refine next_power_of_two_min _ 8 ⟨3, by norm_num⟩ ?_
    split <;> omega
  have : (mkHashTable (K := K) V initial_capacity 3 4 hashFn stream).m =
      next_power_of_two (if initial_capacity < 2 then 2 else initial_capacity) := rfl
  omega

/-- C3 (counterexample to the claim as stated).  With `initialCapacity = 4` and
the default `maxLoadFactor = 0.75`, after inserting 4 distinct keys the
capacity is still 4 and the entry count is 4: the post-insert load factor is
1.0 > 0.75 and the capacity has not grown to 8.  The resize check runs before
an insert, not after it. -/
theorem c3_counterexample :
    ((runOps (mkHashTable Nat 4 3 4 (fun k => k) (fun _ => (0, 0)))
        [HOp.ins 0 0, HOp.ins 1 0, HOp.ins 2 0, HOp.ins 3 0]).map
      (fun t => (t.m, t.n)) = some (4, 4)) ∧
    ((runOps (mkHashTable Nat 4 3 4 (fun k => k) (fun _ => (0, 0)))
        [HOp.ins 0 0, HOp.ins 1 0, HOp.ins 2 0, HOp.ins 3 0]).map
      (fun t => decide (3 * t.m < 4 * t.n ∧ t.m < 8)) = some true) :=
  ⟨by decide, by decide⟩

/-- C3 (amended).  Every state reachable from a fresh table with the default
`maxLoadFactor = 0.75` (any capacity, hash function and seed) satisfies the
post-insert bound `n/m ≤ 3/4 + 1/m` (in integers `4n ≤ 3m + 4`): each insert
restores `n/m ≤ 3/4` *before* placing its entry, so the load factor can exceed
the threshold only by the one entry just placed.  Moreover, with
`initialCapacity = 4`, after inserting 5 distinct keys (not 4) the capacity
has grown to 8. -/
theorem c3_load_factor_bound_amended :
    (∀ (initial_capacity : Nat) (hashFn : K → Nat) (stream : Nat → Nat × Nat)
      (ops : List (HOp K V)) (t2 : HashTableChaining K V),
      runOps (mkHashTable V initial_capacity 3 4 hashFn stream) ops = some t2 →
      4 * t2.n ≤ 3 * t2.m + 4) ∧
    ((runOps (mkHashTable Nat 4 3 4 (fun k => k) (fun _ => (0, 0)))
        [HOp.ins 0 0, HOp.ins 1 0, HOp.ins 2 0, HOp.ins 3 0, HOp.ins 4 0]).map
      (fun t => (t.m, t.n)) = some (8, 5)) := by
  constructor
  · intro initial_capacity hashFn stream ops t2 h
    exact (runOps_DefaultInvA ops _ t2 (mkHashTable_DefaultInvA _ _ _) h).2.2.2.2
  · decide

/-- C4 (counterexample to the claim as stated).  From a fresh table with
`initialCapacity = 32` (default `maxLoadFactor`), inserting one key and then
deleting it shrinks the table only once, from 32 to 16: the resulting state has
`m = 16 > 8` and `n = 0`, so the load factor 0 is far below 0.20 after a
delete. -/
theorem c4_counterexample :
    ((runOps (mkHashTable Nat 32 3 4 (fun k => k) (fun _ => (0, 0)))
        [HOp.ins 0 0, HOp.del 0]).map (fun t => (t.m, t.n)) = some (16, 0)) ∧
    ((runOps (mkHashTable Nat 32 3 4 (fun k => k) (fun _ => (0, 0)))
        [HOp.ins 0 0, HOp.del 0]).map
      (fun t => decide (8 < t.m ∧ 5 * t.n < t.m)) = some true) :=
  ⟨by decide, by decide⟩

/-- C4 (amended).  For tables created with the default `maxLoadFactor = 0.75`
and an initial capacity of at most 8, every reachable state — in particular
every state after a delete — with capacity `m > 8` has load factor at least
0.20 (`m ≤ 5n`).  Larger initial capacities violate the bound (see the
counterexample): a single delete shrinks by at most one halving and cannot
restore it. -/
theorem c4_shrink_bound_amended (initial_capacity : Nat) (hashFn : K → Nat)
    (stream : Nat → Nat × Nat) (ops : List (HOp K V)) (t2 : HashTableChaining K V)
    (hcap : initial_capacity ≤ 8)
    (h : runOps (mkHashTable V initial_capacity 3 4 hashFn stream) ops = some t2)
    (hm : 8 < t2.m) : t2.m ≤ 5 * t2.n :=
  (runOps_DefaultInvB ops _ t2 (mkHashTable_DefaultInvB _ _ _ hcap) h).2 hm

/-- C10.  In every table state reachable from a fresh table by any operation
sequence (any parameters), the keys stored across all buckets are pairwise
distinct, and `n` equals the number of stored pairs — hence the number of
distinct stored keys. -/
theorem c10_stored_keys_distinct (initial_capacity mlf_num mlf_den : Nat)
    (hashFn : K → Nat) (stream : Nat → Nat × Nat) (ops : List (HOp K V))
    (t2 : HashTableChaining K V)
    (h : runOps (mkHashTable V initial_capacity mlf_num mlf_den hashFn stream) ops = some t2) :
    ((t2.table.flatten.map Prod.fst).Nodup) ∧ t2.n = t2.table.flatten.length := by
  have hInv : t2.Inv := runOps_Inv ops _ t2 (mkHashTable_Inv _ _ _ _ _) h
  exact ⟨t2.flatten_nodup hInv, hInv.2.2.1⟩

/-! Quicksort (src/quicksort.py).  Array indices are `Int`, as Python indices
may go to `lo - 1` or `hi + 1`; reads use `geti` (out-of-range index behaviour
is irrelevant: every theorem keeps indices in bounds). -/

variable {α : Type} [LinearOrder α] [Inhabited α]

/-- Read `arr[j]` (with a default out of range). -/
def geti (arr : List α) (j : Int) : α := arr.getD j.toNat default

/-- The simultaneous assignment `arr[i], arr[j] = arr[j], arr[i]`. -/
def swapList (arr : List α) (i j : Int) : List α :=
  let xi := geti arr i
  let xj := geti arr j
  (arr.set i.toNat xj).set j.toNat xi

/-- The `while i <= gt` scan of `_partition_3way`, with fuel. -/
def partitionLoopF (pivot : α) : Nat → List α → Int → Int → Int → Option (List α × Int × Int)
  | 0, arr, lt, i, gt => if i ≤ gt then none else some (arr, lt, gt)
  | fuel + 1, arr, lt, i, gt =>
    if i ≤ gt then
      let x := geti arr i
      if x < pivot then
        partitionLoopF pivot fuel (swapList arr (lt + 1) i) (lt + 1) (i + 1) gt
      else if pivot < x then
        partitionLoopF pivot fuel (swapList arr i gt) lt i (gt - 1)
      else
        partitionLoopF pivot fuel arr lt (i + 1) gt
    else some (arr, lt, gt)

/-- `_partition_3way(arr, lo, hi, pivot_index)`: save the pivot value, swap the
pivot to `lo`, run the three-way scan with `lt = lo`, `i = lo + 1`, `gt = hi`,
and finally swap the pivot from `lo` into position `lt`.  Returns the array
together with `(lt, gt)`. -/
def partition_3way (arr : List α) (lo hi pivot_index : Int) :
    Option (List α × Int × Int) :=
  let pivot := geti arr pivot_index
  let arr0 := swapList arr lo pivot_index
  (partitionLoopF pivot (hi + 2 - lo).toNat arr0 lo (lo + 1) hi).map
    fun r => (swapList r.1 lo r.2.1, r.2.1, r.2.2)

/-- `_quicksort(arr, lo, hi, choose_pivot_index)` with fuel: the `while lo < hi`
loop that partitions, recurses on the smaller side and tail-iterates on the
larger side (the tail iteration is the second recursive call). -/
def quicksortF (choose : Int → Int → Int) : Nat → List α → Int → Int → Option (List α)
  | 0, arr, lo, hi => if lo < hi then none else some arr
  | fuel + 1, arr, lo, hi =>
    if lo < hi then
      let pivot_index := choose lo hi
      (partition_3way arr lo hi pivot_index).bind fun r =>
        let arr1 := r.1
        let lt := r.2.1
        let gt := r.2.2
        let left_lo := lo
        let left_hi := lt - 1
        let right_lo := gt + 1
        let right_hi := hi
        if left_hi - left_lo < right_hi - right_lo then
          (if left_lo < left_hi then quicksortF choose fuel arr1 left_lo left_hi
            else some arr1).bind fun arr2 =>
            quicksortF choose fuel arr2 right_lo right_hi
        else
          (if right_lo < right_hi then quicksortF choose fuel arr1 right_lo right_hi
            else some arr1).bind fun arr2 =>
            quicksortF choose fuel arr2 left_lo left_hi
    else some arr

/-- `randomized_quicksort(arr, seed)`: works on the copy `a = list(arr)`; the
pivot choices `random.randint(lo, hi)` after an arbitrary seeding are modelled
by an arbitrary function `choose` (theorems assume it stays in `[lo, hi]`). -/
def randomized_quicksort (choose : Int → Int → Int) (arr : List α) : Option (List α) :=
  if arr.length = 0 then some arr
  else quicksortF choose arr.length arr 0 ((arr.length : Int) - 1)

/-- `deterministic_quicksort_first_pivot(arr)`: always picks `lo` as pivot. -/
def deterministic_quicksort_first_pivot (arr : List α) : Option (List α) :=
  if arr.length = 0 then some arr
  else quicksortF (fun lo _ => lo) arr.length arr 0 ((arr.length : Int) - 1)

/-- `is_sorted(arr)`: every adjacent pair satisfies `arr[i] <= arr[i+1]`. -/
def is_sorted : List α → Bool
  | [] => true
  | [_] => true
  | x :: y :: rest => decide (x ≤ y) && is_sorted (y :: rest)

/-! Swap lemmas. -/

theorem take_getElem_drop {β : Type} (l : List β) (i : Nat) (h : i < l.length) :
    l.take i ++ l[i] :: l.drop (i + 1) = l := by
  rw [List.getElem_cons_drop, List.take_append_drop]

theorem count_set_eq {β : Type} [DecidableEq β] (l : List β) (i : Nat) (a x : β)
    (h : i < l.length) :
    List.count x (l.set i a) + List.count x [l[i]] =
      List.count x l + List.count x [a] := by
  rw [List.set_eq_take_cons_drop a h]
  conv_rhs => rw [← take_getElem_drop l i h]
  simp only [List.count_append, List.count_cons, List.count_singleton, List.count_nil]
  split <;> split <;> omega

theorem geti_eq_getElem (arr : List α) (j : Int) (h : j.toNat < arr.length) :
    geti arr j = arr[j.toNat] := by
  rw [geti, List.getD_eq_getElem?_getD, List.getElem?_eq_getElem h]
  rfl

theorem length_swapList (arr : List α) (i j : Int) :
    (swapList arr i j).length = arr.length := by
  simp [swapList]

theorem geti_congr (arr : List α) (j k : Int) (h : j.toNat = k.toNat) :
    geti arr j = geti arr k := by
  rw [geti, geti, h]

theorem swapList_perm (arr : List α) (i j : Int) (hi : i.toNat < arr.length)
    (hj : j.toNat < arr.length) : List.Perm (swapList arr i j) arr := by
  have hde : DecidableEq α := inferInstance
  rw [List.perm_iff_count]
  intro x
  have hlen1 : (arr.set i.toNat (geti arr j)).length = arr.length := by simp
  have h1 := count_set_eq arr i.toNat (geti arr j) x hi
  have h2 := count_set_eq (arr.set i.toNat (geti arr j)) j.toNat (geti arr i) x
    (by omega)
  have hgj : geti arr j = arr[j.toNat] := geti_eq_getElem arr j hj
  have hgi : geti arr i = arr[i.toNat] := geti_eq_getElem arr i hi
  show List.count x ((arr.set i.toNat (geti arr j)).set j.toNat (geti arr i)) = _
  by_cases hij : i.toNat = j.toNat
  · have hv : List.count x [(arr.set i.toNat (geti arr j))[j.toNat]] =
        List.count x [geti arr j] := by
      congr 1
      rw [List.getElem_set, if_pos hij]
    have e1 : List.count x [arr[i.toNat]] = List.count x [geti arr i] := by rw [hgi]
    have e2 : List.count x [geti arr i] = List.count x [geti arr j] := by
      rw [geti_congr arr i j hij]
    omega
  · have hv : List.count x [(arr.set i.toNat (geti arr j))[j.toNat]] =
        List.count x [arr[j.toNat]] := by
      congr 1
      rw [List.getElem_set, if_neg hij]
    have e1 : List.count x [arr[i.toNat]] = List.count x [geti arr i] := by rw [hgi]
    have e3 : List.count x [arr[j.toNat]] = List.count x [geti arr j] := by rw [hgj]
    omega

theorem geti_swapList (arr : List α) (i j k : Int) (hi : i.toNat < arr.length)
    (hj : j.toNat < arr.length) (hk : k.toNat < arr.length) :
    geti (swapList arr i j) k =
      if j.toNat = k.toNat then geti arr i
      else if i.toNat = k.toNat then geti arr j
      else geti arr k := by
  have hlen : (swapList arr i j).length = arr.length := length_swapList arr i j
  rw [geti_eq_getElem _ k (by omega)]
  simp only [swapList]
  rw [List.getElem_set]
  split
  · rfl
  · rw [List.getElem_set]
    split
    · rfl
    · rw [geti_eq_getElem arr k hk]

/-- Loop invariant proof for the Dutch-National-Flag scan: from a state where
`arr[lo] = pivot`, `arr(lo..lt] < pivot`, `arr(lt..i) = pivot` and
`arr(gt..hi] > pivot`, the loop ends with `i = gt + 1` and the same regions
delimited by the returned `(lt, gt)`, permuting only the window. -/
theorem partitionLoopF_spec (pivot : α) (lo hi : Int) (hlo : 0 ≤ lo) :
    ∀ (fuel : Nat) (arr : List α) (lt i gt : Int) (out : List α × Int × Int),
      partitionLoopF pivot fuel arr lt i gt = some out →
      lo ≤ lt → lt < i → i ≤ gt + 1 → gt ≤ hi → hi < (arr.length : Int) →
      geti arr lo = pivot →
      (∀ j : Int, lo < j → j ≤ lt → geti arr j < pivot) →
      (∀ j : Int, lt < j → j < i → geti arr j = pivot) →
      (∀ j : Int, gt < j → j ≤ hi → pivot < geti arr j) →
      out.1.length = arr.length ∧ List.Perm out.1 arr ∧
      (∀ j : Int, 0 ≤ j → (j < lo ∨ hi < j) → geti out.1 j = geti arr j) ∧
      lo ≤ out.2.1 ∧ out.2.1 ≤ out.2.2 ∧ out.2.2 ≤ hi ∧
      geti out.1 lo = pivot ∧
      (∀ j : Int, lo < j → j ≤ out.2.1 → geti out.1 j < pivot) ∧
      (∀ j : Int, out.2.1 < j → j ≤ out.2.2 → geti out.1 j = pivot) ∧
      (∀ j : Int, out.2.2 < j → j ≤ hi → pivot < geti out.1 j) := by
  intro fuel
  induction fuel with
  | zero =>
    intro arr lt i gt out h hllt hlti higt hgthi hhilen hplo hless hequal hgreater
    rw [partitionLoopF] at h
    split at h
    · cases h
    · rename_i hexit
      cases h
      dsimp only
      refine ⟨rfl, List.Perm.refl _, fun j _ _ => rfl, hllt, by omega, hgthi, hplo,
        hless, ?_, hgreater⟩
      intro j hj1 hj2
      exact hequal j hj1 (by omega)
  | succ f ih =>
    intro arr lt i gt out h hllt hlti higt hgthi hhilen hplo hless hequal hgreater
    simp only [partitionLoopF] at h
    by_cases higt2 : i ≤ gt
    · rw [if_pos higt2] at h
      have hltlen : (lt + 1).toNat < arr.length := by omega
      have hilen2 : i.toNat < arr.length := by omega
      have hgtlen : gt.toNat < arr.length := by omega
      have hlolen : lo.toNat < arr.length := by omega
      by_cases hxlt : geti arr i < pivot
      · rw [if_pos hxlt] at h
        have hswlen : (swapList arr (lt + 1) i).length = arr.length :=
          length_swapList _ _ _
        have hplo2 : geti (swapList arr (lt + 1) i) lo = pivot := by
          rw [geti_swapList arr (lt + 1) i lo hltlen hilen2 hlolen,
            if_neg (by omega), if_neg (by omega)]
          exact hplo
        have hless2 : ∀ j : Int, lo < j → j ≤ lt + 1 →
            geti (swapList arr (lt + 1) i) j < pivot := by
          intro j hj1 hj2
          have hjlen : j.toNat < arr.length := by omega
          rw [geti_swapList arr (lt + 1) i j hltlen hilen2 hjlen]
          by_cases hji : i.toNat = j.toNat
          · rw [if_pos hji]
            rw [geti_congr arr (lt + 1) i (by omega)]
            exact hxlt
          · rw [if_neg hji]
            by_cases hjlt : (lt + 1).toNat = j.toNat
            · rw [if_pos hjlt]
              exact hxlt
            · rw [if_neg hjlt]
              exact hless j hj1 (by omega)
        have hequal2 : ∀ j : Int, lt + 1 < j → j < i + 1 →
            geti (swapList arr (lt + 1) i) j = pivot := by
          intro j hj1 hj2
          have hjlen : j.toNat < arr.length := by omega
          rw [geti_swapList arr (lt + 1) i j hltlen hilen2 hjlen]
          by_cases hji : i.toNat = j.toNat
          · rw [if_pos hji]
            exact hequal (lt + 1) (by omega) (by omega)
          · rw [if_neg hji, if_neg (by omega)]
            exact hequal j (by omega) (by omega)
        have hgreater2 : ∀ j : Int, gt < j → j ≤ hi →
            pivot < geti (swapList arr (lt + 1) i) j := by
          intro j hj1 hj2
          have hjlen : j.toNat < arr.length := by omega
          rw [geti_swapList arr (lt + 1) i j hltlen hilen2 hjlen,
            if_neg (by omega), if_neg (by omega)]
          exact hgreater j hj1 hj2
        obtain ⟨hOlen, hOperm, hOframe, hOb1, hOb2, hOb3, hOplo, hOless, hOequal, hOgr⟩ :=
          ih (swapList arr (lt + 1) i) (lt + 1) (i + 1) gt out h (by omega) (by omega)
            (by omega) hgthi (by rw [hswlen]; exact hhilen) hplo2 hless2 hequal2 hgreater2
        refine ⟨by rw [hOlen, hswlen],
          hOperm.trans (swapList_perm arr (lt + 1) i hltlen hilen2), ?_,
          by omega, hOb2, hOb3, hOplo, hOless, hOequal, hOgr⟩
        intro j hj0 hjout
        rw [hOframe j hj0 hjout]
        by_cases hjlen : j.toNat < arr.length
        · rw [geti_swapList arr (lt + 1) i j hltlen hilen2 hjlen,
            if_neg (by omega), if_neg (by omega)]
        · rw [geti, geti, List.getD_eq_default _ _ (by rw [hswlen]; omega),
            List.getD_eq_default _ _ (by omega)]
      · rw [if_neg hxlt] at h
        by_cases hxgt : pivot < geti arr i
        · rw [if_pos hxgt] at h
          have hswlen : (swapList arr i gt).length = arr.length := length_swapList _ _ _
          have hplo2 : geti (swapList arr i gt) lo = pivot := by
            rw [geti_swapList arr i gt lo hilen2 hgtlen hlolen,
              if_neg (by omega), if_neg (by omega)]
            exact hplo
          have hless2 : ∀ j : Int, lo < j → j ≤ lt →
              geti (swapList arr i gt) j < pivot := by
            intro j hj1 hj2
            have hjlen : j.toNat < arr.length := by omega
            rw [geti_swapList arr i gt j hilen2 hgtlen hjlen,
              if_neg (by omega), if_neg (by omega)]
            exact hless j hj1 hj2
          have hequal2 : ∀ j : Int, lt < j → j < i →
              geti (swapList arr i gt) j = pivot := by
            intro j hj1 hj2
            have hjlen : j.toNat < arr.length := by omega
            rw [geti_swapList arr i gt j hilen2 hgtlen hjlen,
              if_neg (by omega), if_neg (by omega)]
            exact hequal j hj1 hj2
          have hgreater2 : ∀ j : Int, gt - 1 < j → j ≤ hi →
              pivot < geti (swapList arr i gt) j := by
            intro j hj1 hj2
            have hjlen : j.toNat < arr.length := by omega
            rw [geti_swapList arr i gt j hilen2 hgtlen hjlen]
            by_cases hjgt : gt.toNat = j.toNat
            · rw [if_pos hjgt]
              exact hxgt
            · rw [if_neg hjgt, if_neg (by omega)]
              exact hgreater j (by omega) hj2
          obtain ⟨hOlen, hOperm, hOframe, hOb1, hOb2, hOb3, hOplo, hOless, hOequal, hOgr⟩ :=
            ih (swapList arr i gt) lt i (gt - 1) out h hllt hlti (by omega) (by omega)
              (by rw [hswlen]; exact hhilen) hplo2 hless2 hequal2 hgreater2
          refine ⟨by rw [hOlen, hswlen],
            hOperm.trans (swapList_perm arr i gt hilen2 hgtlen), ?_,
            hOb1, hOb2, by omega, hOplo, hOless, hOequal, hOgr⟩
          intro j hj0 hjout
          rw [hOframe j hj0 hjout]
          by_cases hjlen : j.toNat < arr.length
          · rw [geti_swapList arr i gt j hilen2 hgtlen hjlen,
              if_neg (by omega), if_neg (by omega)]
          · rw [geti, geti, List.getD_eq_default _ _ (by rw [hswlen]; omega),
              List.getD_eq_default _ _ (by omega)]
        · rw [if_neg hxgt] at h
          have hx : geti arr i = pivot :=
            le_antisymm (not_lt.mp hxgt) (not_lt.mp hxlt)
          have hequal2 : ∀ j : Int, lt < j → j < i + 1 → geti arr j = pivot := by
            intro j hj1 hj2
            by_cases hji : j = i
            · rw [hji]
              exact hx
            · exact hequal j hj1 (by omega)
          exact ih arr lt (i + 1) gt out h hllt (by omega) (by omega) hgthi hhilen
            hplo hless hequal2 hgreater
    · rw [if_neg higt2] at h
      cases h
      dsimp only
      refine ⟨rfl, List.Perm.refl _, fun j _ _ => rfl, hllt, by omega, hgthi, hplo,
        hless, ?_, hgreater⟩
      intro j hj1 hj2
      exact hequal j hj1 (by omega)

theorem partitionLoopF_succ (pivot : α) :
    ∀ (fuel : Nat) (arr : List α) (lt i gt : Int),
      (gt + 1 - i).toNat ≤ fuel →
      (partitionLoopF pivot fuel arr lt i gt).isSome := by
  intro fuel
  induction fuel with
  | zero =>
    intro arr lt i gt hf
    rw [partitionLoopF, if_neg (by omega)]
    rfl
  | succ f ih =>
    intro arr lt i gt hf
    simp only [partitionLoopF]
    by_cases higt : i ≤ gt
    · rw [if_pos higt]
      by_cases h1 : geti arr i < pivot
      · rw [if_pos h1]
        exact ih _ _ _ _ (by omega)
      · rw [if_neg h1]
        by_cases h2 : pivot < geti arr i
        · rw [if_pos h2]
          exact ih _ _ _ _ (by omega)
        · rw [if_neg h2]
          exact ih _ _ _ _ (by omega)
    · rw [if_neg higt]
      rfl

/-- Full specification of `_partition_3way` on an in-bounds window: the call
succeeds and returns `(lt, gt)` with `lo ≤ lt ≤ gt ≤ hi` delimiting the
strictly-less / equal / strictly-greater regions for the original pivot value
`arr[pivot_index]`, permuting the array and touching only the window. -/
theorem partition_3way_spec (arr : List α) (lo hi pivot_index : Int)
    (hlo : 0 ≤ lo) (hpi1 : lo ≤ pivot_index) (hpi2 : pivot_index ≤ hi)
    (hhi : hi < (arr.length : Int)) :
    ∃ arr2 lt gt, partition_3way arr lo hi pivot_index = some (arr2, lt, gt) ∧
      arr2.length = arr.length ∧ List.Perm arr2 arr ∧
      (∀ j : Int, 0 ≤ j → (j < lo ∨ hi < j) → geti arr2 j = geti arr j) ∧
      lo ≤ lt ∧ lt ≤ gt ∧ gt ≤ hi ∧
      (∀ j : Int, lo ≤ j → j < lt → geti arr2 j < geti arr pivot_index) ∧
      (∀ j : Int, lt ≤ j → j ≤ gt → geti arr2 j = geti arr pivot_index) ∧
      (∀ j : Int, gt < j → j ≤ hi → geti arr pivot_index < geti arr2 j) := by
  have hlolen : lo.toNat < arr.length := by omega
  have hpilen : pivot_index.toNat < arr.length := by omega
  have harr0len : (swapList arr lo pivot_index).length = arr.length := length_swapList _ _ _
  have hplo0 : geti (swapList arr lo pivot_index) lo = geti arr pivot_index := by
    rw [geti_swapList arr lo pivot_index lo hlolen hpilen hlolen]
    by_cases hpl : pivot_index.toNat = lo.toNat
    · rw [if_pos hpl]
      exact geti_congr arr lo pivot_index (by omega)
    · rw [if_neg hpl, if_pos rfl]
  have hsuc := partitionLoopF_succ (geti arr pivot_index) ((hi + 2 - lo).toNat)
    (swapList arr lo pivot_index) lo (lo + 1) hi (by omega)
  obtain ⟨r, hr⟩ := Option.isSome_iff_exists.mp hsuc
  obtain ⟨arr1, lt, gt⟩ := r
  obtain ⟨hOlen, hOperm, hOframe, hOb1, hOb2, hOb3, hOplo, hOless, hOequal, hOgr⟩ :=
    partitionLoopF_spec (geti arr pivot_index) lo hi hlo ((hi + 2 - lo).toNat)
      (swapList arr lo pivot_index) lo (lo + 1) hi (arr1, lt, gt) hr
      le_rfl (by omega) (by omega) le_rfl (by rw [harr0len]; exact hhi) hplo0
      (fun j hj1 hj2 => absurd hj1 (by omega))
      (fun j hj1 hj2 => absurd hj1 (by omega))
      (fun j hj1 hj2 => absurd hj1 (by omega))
  dsimp only at hOlen hOperm hOframe hOb1 hOb2 hOb3 hOplo hOless hOequal hOgr
  have hlt1len : lt.toNat < arr1.length := by
    rw [hOlen, harr0len]
    omega
  have hlo1len : lo.toNat < arr1.length := by
    rw [hOlen, harr0len]
    omega
  refine ⟨swapList arr1 lo lt, lt, gt, ?_, ?_, ?_, ?_, hOb1, hOb2, hOb3, ?_, ?_, ?_⟩
  · simp only [partition_3way, hr, Option.map_some']
  · rw [length_swapList, hOlen, harr0len]
  · exact ((swapList_perm arr1 lo lt hlo1len hlt1len).trans hOperm).trans
      (swapList_perm arr lo pivot_index hlolen hpilen)
  · intro j hj0 hjout
    by_cases hjlen : j.toNat < arr.length
    · rw [geti_swapList arr1 lo lt j hlo1len hlt1len (by rw [hOlen, harr0len]; omega),
        if_neg (by omega), if_neg (by omega), hOframe j hj0 hjout,
        geti_swapList arr lo pivot_index j hlolen hpilen hjlen,
        if_neg (by omega), if_neg (by omega)]
    · rw [geti, geti,
        List.getD_eq_default _ _ (by rw [length_swapList, hOlen, harr0len]; omega),
        List.getD_eq_default _ _ (by omega)]
  · intro j hj1 hj2
    have hjlen : j.toNat < arr1.length := by rw [hOlen, harr0len]; omega
    rw [geti_swapList arr1 lo lt j hlo1len hlt1len hjlen]
    by_cases hjl : j = lo
    · rw [if_neg (by omega), if_pos (by omega)]
      exact hOless lt (by omega) le_rfl
    · rw [if_neg (by omega), if_neg (by omega)]
      exact hOless j (by omega) (by omega)
  · intro j hj1 hj2
    have hjlen : j.toNat < arr1.length := by rw [hOlen, harr0len]; omega
    rw [geti_swapList arr1 lo lt j hlo1len hlt1len hjlen]
    by_cases hjl : lt.toNat = j.toNat
    · rw [if_pos hjl]
      exact hOplo
    · rw [if_neg hjl, if_neg (by omega)]
      exact hOequal j (by omega) hj2
  · intro j hj1 hj2
    have hjlen : j.toNat < arr1.length := by rw [hOlen, harr0len]; omega
    rw [geti_swapList arr1 lo lt j hlo1len hlt1len hjlen,
      if_neg (by omega), if_neg (by omega)]
    exact hOgr j hj1 hj2

/-! Window machinery: the contents of `arr[lo..hi]` as a list, preserved as a
multiset by any permutation that fixes everything outside the window. -/

def windowList (arr : List α) (lo hi : Int) : List α :=
  (arr.drop lo.toNat).take (hi + 1 - lo).toNat

theorem window_decomp (arr : List α) (lo hi : Int) :
    arr.take lo.toNat ++ windowList arr lo hi ++
      arr.drop (lo.toNat + (hi + 1 - lo).toNat) = arr := by
  rw [windowList, List.append_assoc]
  have hdd : arr.drop (lo.toNat + (hi + 1 - lo).toNat) =
      (arr.drop lo.toNat).drop (hi + 1 - lo).toNat := by
    rw [List.drop_drop]
  rw [hdd, List.take_append_drop, List.take_append_drop]

theorem getElem_idx_congr {β : Type} (l : List β) (n1 n2 : Nat) (h1 : n1 < l.length)
    (h2 : n2 < l.length) (h : n1 = n2) : l[n1] = l[n2] := by
  subst h
  rfl

theorem geti_natCast (l : List α) (n : Nat) (h : n < l.length) :
    geti l (n : Int) = l[n] := by
  have hc : ((n : Int)).toNat = n := Int.toNat_natCast n
  rw [geti, hc, List.getD_eq_getElem?_getD, List.getElem?_eq_getElem h]
  rfl

theorem mem_window (arr : List α) (lo hi : Int) (hlo : 0 ≤ lo)
    (hhi : hi < (arr.length : Int)) (x : α) :
    x ∈ windowList arr lo hi ↔ ∃ j : Int, lo ≤ j ∧ j ≤ hi ∧ geti arr j = x := by
  have hdlen : (arr.drop lo.toNat).length = arr.length - lo.toNat :=
    List.length_drop _ _
  constructor
  · intro hmem
    rw [windowList] at hmem
    obtain ⟨n, hn, hgn⟩ := List.mem_iff_getElem.mp hmem
    have hnw : n < (hi + 1 - lo).toNat := by
      simp only [List.length_take] at hn
      omega
    have hnd : n < (arr.drop lo.toNat).length := by
      simp only [List.length_take] at hn
      omega
    refine ⟨lo + n, by omega, by omega, ?_⟩
    rw [← hgn, List.getElem_take, List.getElem_drop,
      geti_eq_getElem arr (lo + n) (by omega)]
    exact getElem_idx_congr arr _ _ (by omega) (by omega) (by omega)
  · intro hex
    obtain ⟨j, hj1, hj2, hje⟩ := hex
    rw [windowList]
    have hn : j.toNat - lo.toNat < ((arr.drop lo.toNat).take (hi + 1 - lo).toNat).length := by
      simp only [List.length_take]
      omega
    refine List.mem_iff_getElem.mpr ⟨j.toNat - lo.toNat, hn, ?_⟩
    rw [List.getElem_take, List.getElem_drop, ← hje,
      geti_eq_getElem arr j (by omega)]
    exact getElem_idx_congr arr _ _ (by omega) (by omega) (by omega)

theorem window_perm (a b : List α) (lo hi : Int) (hlo : 0 ≤ lo)
    (hlen : b.length = a.length) (hperm : List.Perm b a)
    (hframe : ∀ j : Int, 0 ≤ j → (j < lo ∨ hi < j) → geti b j = geti a j)
    (hhi : hi < (a.length : Int)) :
    List.Perm (windowList b lo hi) (windowList a lo hi) := by
  have htake : b.take lo.toNat = a.take lo.toNat := by
    apply List.ext_getElem
    · rw [List.length_take, List.length_take, hlen]
    · intro n h1 h2
      rw [List.getElem_take, List.getElem_take]
      have hb : n < b.length := by
        rw [List.length_take] at h1
        omega
      have ha2 : n < a.length := by rw [← hlen]; exact hb
      have hfr := hframe (n : Int) (by omega) (by
        left
        rw [List.length_take] at h1
        omega)
      rw [geti_natCast b n hb, geti_natCast a n ha2] at hfr
      exact hfr
  have hdrop : b.drop (lo.toNat + (hi + 1 - lo).toNat) =
      a.drop (lo.toNat + (hi + 1 - lo).toNat) := by
    apply List.ext_getElem
    · rw [List.length_drop, List.length_drop, hlen]
    · intro n h1 h2
      rw [List.getElem_drop, List.getElem_drop]
      have hb : lo.toNat + (hi + 1 - lo).toNat + n < b.length := by
        rw [List.length_drop] at h1
        omega
      have ha2 : lo.toNat + (hi + 1 - lo).toNat + n < a.length := by
        rw [← hlen]
        exact hb
      have hfr := hframe ((lo.toNat + (hi + 1 - lo).toNat + n : Nat) : Int) (by omega)
        (by right; omega)
      rw [geti_natCast b _ hb, geti_natCast a _ ha2] at hfr
      exact hfr
  have hde : DecidableEq α := inferInstance
  rw [List.perm_iff_count]
  intro x
  have hcb : List.count x (b.take lo.toNat ++ windowList b lo hi ++
      b.drop (lo.toNat + (hi + 1 - lo).toNat)) = List.count x b := by
    rw [window_decomp]
  have hca : List.count x (a.take lo.toNat ++ windowList a lo hi ++
      a.drop (lo.toNat + (hi + 1 - lo).toNat)) = List.count x a := by
    rw [window_decomp]
  rw [List.count_append, List.count_append] at hcb hca
  rw [htake, hdrop] at hcb
  have hcnt := List.Perm.count_eq hperm x
  omega

theorem window_all_transfer (a b : List α) (lo hi : Int) (P : α → Prop)
    (hperm : List.Perm (windowList b lo hi) (windowList a lo hi))
    (h : ∀ j : Int, lo ≤ j → j ≤ hi → P (geti a j)) (hlo : 0 ≤ lo)
    (hhia : hi < (a.length : Int)) (hhib : hi < (b.length : Int)) :
    ∀ j : Int, lo ≤ j → j ≤ hi → P (geti b j) := by
  intro j hj1 hj2
  have hmem : geti b j ∈ windowList b lo hi :=
    (mem_window b lo hi hlo hhib _).mpr ⟨j, hj1, hj2, rfl⟩
  have hmem2 : geti b j ∈ windowList a lo hi := hperm.mem_iff.mp hmem
  obtain ⟨j2, hj21, hj22, hj2e⟩ := (mem_window a lo hi hlo hhia _).mp hmem2
  rw [← hj2e]
  exact h j2 hj21 hj22

/-- One sorting pass over a window: same length, a permutation, everything
outside the window untouched, and the window pairwise sorted. -/
def SortStep (a b : List α) (wlo whi : Int) : Prop :=
  b.length = a.length ∧ List.Perm b a ∧
  (∀ j : Int, 0 ≤ j → (j < wlo ∨ whi < j) → geti b j = geti a j) ∧
  (∀ j1 j2 : Int, wlo ≤ j1 → j1 ≤ j2 → j2 ≤ whi → geti b j1 ≤ geti b j2)

theorem SortStep_refl (a : List α) (wlo whi : Int) (h : ¬(wlo < whi)) :
    SortStep a a wlo whi := by
  refine ⟨rfl, List.Perm.refl _, fun j _ _ => rfl, ?_⟩
  intro j1 j2 h1 h2 h3
  have : j1 = j2 := by omega
  rw [this]

theorem sorted_of_regions (c : List α) (lo lt gt hi : Int) (pv : α)
    (h1 : lo ≤ lt) (h2 : lt ≤ gt) (h3 : gt ≤ hi)
    (Av : ∀ j : Int, lo ≤ j → j < lt → geti c j < pv)
    (Bv : ∀ j : Int, lt ≤ j → j ≤ gt → geti c j = pv)
    (Cv : ∀ j : Int, gt < j → j ≤ hi → pv < geti c j)
    (SL : ∀ j1 j2 : Int, lo ≤ j1 → j1 ≤ j2 → j2 ≤ lt - 1 → geti c j1 ≤ geti c j2)
    (SR : ∀ j1 j2 : Int, gt + 1 ≤ j1 → j1 ≤ j2 → j2 ≤ hi → geti c j1 ≤ geti c j2) :
    ∀ j1 j2 : Int, lo ≤ j1 → j1 ≤ j2 → j2 ≤ hi → geti c j1 ≤ geti c j2 := by
  intro j1 j2 ha hb hc
  by_cases c1 : j2 ≤ lt - 1
  · exact SL j1 j2 ha hb c1
  · by_cases c2 : gt + 1 ≤ j1
    · exact SR j1 j2 c2 hb hc
    · have hj1 : geti c j1 ≤ pv := by
        by_cases d1 : j1 < lt
        · exact le_of_lt (Av j1 ha d1)
        · exact le_of_eq (Bv j1 (by omega) (by omega))
      have hj2 : pv ≤ geti c j2 := by
        by_cases d2 : gt < j2
        · exact le_of_lt (Cv j2 d2 hc)
        · exact le_of_eq (Bv j2 (by omega) (by omega)).symm
      exact le_trans hj1 hj2

/-- Combining a partition with the two recursive sorts (in either order:
smaller side by recursion, larger side by the loop) yields a sort of the whole
window. -/
theorem qs_combine (arr1 b c : List α) (lo lt gt hi : Int) (pv : α)
    (hlo : 0 ≤ lo) (h1 : lo ≤ lt) (h2 : lt ≤ gt) (h3 : gt ≤ hi)
    (hhi : hi < (arr1.length : Int))
    (hless : ∀ j : Int, lo ≤ j → j < lt → geti arr1 j < pv)
    (hequal : ∀ j : Int, lt ≤ j → j ≤ gt → geti arr1 j = pv)
    (hgreater : ∀ j : Int, gt < j → j ≤ hi → pv < geti arr1 j)
    (hbc : (SortStep arr1 b lo (lt - 1) ∧ SortStep b c (gt + 1) hi) ∨
      (SortStep arr1 b (gt + 1) hi ∧ SortStep b c lo (lt - 1))) :
    c.length = arr1.length ∧ List.Perm c arr1 ∧
    (∀ j : Int, 0 ≤ j → (j < lo ∨ hi < j) → geti c j = geti arr1 j) ∧
    (∀ j1 j2 : Int, lo ≤ j1 → j1 ≤ j2 → j2 ≤ hi → geti c j1 ≤ geti c j2) := by
  rcases hbc with ⟨⟨hbl, hbp, hbf, hbs⟩, ⟨hcl, hcp, hcf, hcs⟩⟩ |
    ⟨⟨hbl, hbp, hbf, hbs⟩, ⟨hcl, hcp, hcf, hcs⟩⟩
  · have hwl : List.Perm (windowList b lo (lt - 1)) (windowList arr1 lo (lt - 1)) :=
      window_perm arr1 b lo (lt - 1) hlo hbl hbp hbf (by omega)
    have hwr : List.Perm (windowList c (gt + 1) hi) (windowList b (gt + 1) hi) :=
      window_perm b c (gt + 1) hi (by omega) hcl hcp hcf (by omega)
    have hbless : ∀ j : Int, lo ≤ j → j ≤ lt - 1 → geti b j < pv :=
      window_all_transfer arr1 b lo (lt - 1) (fun x => x < pv) hwl
        (fun j hj1 hj2 => hless j hj1 (by omega)) hlo (by omega) (by omega)
    have hcgr : ∀ j : Int, gt + 1 ≤ j → j ≤ hi → pv < geti c j := by
      refine window_all_transfer b c (gt + 1) hi (fun x => pv < x) hwr ?_
        (by omega) (by omega) (by omega)
      intro j hj1 hj2
      rw [hbf j (by omega) (by right; omega)]
      exact hgreater j (by omega) hj2
    refine ⟨by omega, hcp.trans hbp, ?_, ?_⟩
    · intro j hj0 hjout
      rcases hjout with hjo | hjo
      · rw [hcf j hj0 (by left; omega), hbf j hj0 (by left; omega)]
      · rw [hcf j hj0 (by right; omega), hbf j hj0 (by right; omega)]
    · refine sorted_of_regions c lo lt gt hi pv h1 h2 h3 ?_ ?_ ?_ ?_ ?_
      · intro j hj1 hj2
        rw [hcf j (by omega) (by left; omega)]
        exact hbless j hj1 (by omega)
      · intro j hj1 hj2
        rw [hcf j (by omega) (by left; omega), hbf j (by omega) (by right; omega)]
        exact hequal j hj1 hj2
      · intro j hj1 hj2
        exact hcgr j (by omega) hj2
      · intro j1 j2 ha hb2 hc2
        rw [hcf j1 (by omega) (by left; omega), hcf j2 (by omega) (by left; omega)]
        exact hbs j1 j2 ha hb2 hc2
      · exact hcs
  · have hwr : List.Perm (windowList b (gt + 1) hi) (windowList arr1 (gt + 1) hi) :=
      window_perm arr1 b (gt + 1) hi (by omega) hbl hbp hbf (by omega)
    have hwl : List.Perm (windowList c lo (lt - 1)) (windowList b lo (lt - 1)) :=
      window_perm b c lo (lt - 1) hlo hcl hcp hcf (by omega)
    have hbgr : ∀ j : Int, gt + 1 ≤ j → j ≤ hi → pv < geti b j :=
      window_all_transfer arr1 b (gt + 1) hi (fun x => pv < x) hwr
        (fun j hj1 hj2 => hgreater j (by omega) hj2) (by omega) (by omega) (by omega)
    have hcless : ∀ j : Int, lo ≤ j → j ≤ lt - 1 → geti c j < pv := by
      refine window_all_transfer b c lo (lt - 1) (fun x => x < pv) hwl ?_
        hlo (by omega) (by omega)
      intro j hj1 hj2
      rw [hbf j (by omega) (by left; omega)]
      exact hless j hj1 (by omega)
    refine ⟨by omega, hcp.trans hbp, ?_, ?_⟩
    · intro j hj0 hjout
      rcases hjout with hjo | hjo
      · rw [hcf j hj0 (by left; omega), hbf j hj0 (by left; omega)]
      · rw [hcf j hj0 (by right; omega), hbf j hj0 (by right; omega)]
    · refine sorted_of_regions c lo lt gt hi pv h1 h2 h3 ?_ ?_ ?_ ?_ ?_
      · intro j hj1 hj2
        exact hcless j hj1 (by omega)
      · intro j hj1 hj2
        rw [hcf j (by omega) (by right; omega), hbf j (by omega) (by left; omega)]
        exact hequal j hj1 hj2
      · intro j hj1 hj2
        rw [hcf j (by omega) (by right; omega)]
        exact hbgr j (by omega) hj2
      · exact hcs
      · intro j1 j2 ha hb2 hc2
        rw [hcf j1 (by omega) (by right; omega), hcf j2 (by omega) (by right; omega)]
        exact hbs j1 j2 ha hb2 hc2

/-- Full specification of `_quicksort`: with in-range pivot choices and fuel
exceeding the window size, it succeeds and sorts the window, permuting the
array and leaving everything outside the window untouched. -/
theorem quicksortF_spec (choose : Int → Int → Int)
    (hchoose : ∀ l h : Int, l ≤ h → l ≤ choose l h ∧ choose l h ≤ h) :
    ∀ (fuel : Nat) (arr : List α) (lo hi : Int),
      0 ≤ lo → hi < (arr.length : Int) → (hi - lo).toNat < fuel →
      ∃ out, quicksortF choose fuel arr lo hi = some out ∧ SortStep arr out lo hi := by
  intro fuel
  induction fuel with
  | zero =>
    intro arr lo hi _ _ hf
    omega
  | succ f ih =>
    intro arr lo hi hlo hhi hf
    by_cases hlohi : lo < hi
    case neg =>
      refine ⟨arr, ?_, SortStep_refl arr lo hi hlohi⟩
      rw [quicksortF, if_neg hlohi]
    case pos =>
      have hpi := hchoose lo hi (le_of_lt hlohi)
      obtain ⟨arr1, lt, gt, hpart, hlen1, hperm1, hframe1, hb1, hb2, hb3, hless,
        hequal, hgreater⟩ :=
        partition_3way_spec arr lo hi (choose lo hi) hlo hpi.1 hpi.2 hhi
      by_cases hside : lt - 1 - lo < hi - (gt + 1)
      · have hleftE : ∃ b, (if lo < lt - 1 then quicksortF choose f arr1 lo (lt - 1)
            else some arr1) = some b ∧ SortStep arr1 b lo (lt - 1) := by
          by_cases hrec : lo < lt - 1
          · obtain ⟨b, hbeq, hbstep⟩ := ih arr1 lo (lt - 1) hlo
              (by rw [hlen1]; omega) (by omega)
            exact ⟨b, by rw [if_pos hrec]; exact hbeq, hbstep⟩
          · exact ⟨arr1, by rw [if_neg hrec], SortStep_refl arr1 lo (lt - 1) hrec⟩
        obtain ⟨b, hbeq, hbstep⟩ := hleftE
        have hblen : b.length = arr.length := by
          have := hbstep.1
          omega
        obtain ⟨c, hceq, hcstep⟩ := ih b (gt + 1) hi (by omega)
          (by rw [hblen]; exact hhi) (by omega)
        refine ⟨c, ?_, ?_⟩
        · show quicksortF choose (f + 1) arr lo hi = some c
          simp only [quicksortF]
          rw [if_pos hlohi, hpart]
          rw [Option.some_bind]
          dsimp only
          rw [if_pos hside, hbeq, Option.some_bind]
          exact hceq
        · obtain ⟨hclen, hcperm, hcframe, hcsorted⟩ :=
            qs_combine arr1 b c lo lt gt hi (geti arr (choose lo hi)) hlo hb1 hb2 hb3
              (by rw [hlen1]; exact hhi) hless hequal hgreater (Or.inl ⟨hbstep, hcstep⟩)
          refine ⟨by omega, hcperm.trans hperm1, ?_, hcsorted⟩
          intro j hj0 hjout
          rw [hcframe j hj0 hjout, hframe1 j hj0 hjout]
      · have hrightE : ∃ b, (if gt + 1 < hi then quicksortF choose f arr1 (gt + 1) hi
            else some arr1) = some b ∧ SortStep arr1 b (gt + 1) hi := by
          by_cases hrec : gt + 1 < hi
          · obtain ⟨b, hbeq, hbstep⟩ := ih arr1 (gt + 1) hi (by omega)
              (by rw [hlen1]; exact hhi) (by omega)
            exact ⟨b, by rw [if_pos hrec]; exact hbeq, hbstep⟩
          · exact ⟨arr1, by rw [if_neg hrec], SortStep_refl arr1 (gt + 1) hi hrec⟩
        obtain ⟨b, hbeq, hbstep⟩ := hrightE
        have hblen : b.length = arr.length := by
          have := hbstep.1
          omega
        obtain ⟨c, hceq, hcstep⟩ := ih b lo (lt - 1) hlo
          (by rw [hblen]; omega) (by omega)
        refine ⟨c, ?_, ?_⟩
        · show quicksortF choose (f + 1) arr lo hi = some c
          simp only [quicksortF]
          rw [if_pos hlohi, hpart]
          rw [Option.some_bind]
          dsimp only
          rw [if_neg hside, hbeq, Option.some_bind]
          exact hceq
        · obtain ⟨hclen, hcperm, hcframe, hcsorted⟩ :=
            qs_combine arr1 b c lo lt gt hi (geti arr (choose lo hi)) hlo hb1 hb2 hb3
              (by rw [hlen1]; exact hhi) hless hequal hgreater (Or.inr ⟨hbstep, hcstep⟩)
          refine ⟨by omega, hcperm.trans hperm1, ?_, hcsorted⟩
          intro j hj0 hjout
          rw [hcframe j hj0 hjout, hframe1 j hj0 hjout]

theorem is_sorted_iff_adj : ∀ (l : List α),
    is_sorted l = true ↔ ∀ n : Nat, n + 1 < l.length → l.getD n default ≤ l.getD (n + 1) default := by
  intro l
  induction l with
  | nil => simp [is_sorted]
  | cons x rest ih =>
    cases rest with
    | nil => simp [is_sorted]
    | cons y rest2 =>
      rw [is_sorted]
      constructor
      · intro h n hn
        rw [Bool.and_eq_true, decide_eq_true_eq] at h
        cases n with
        | zero => exact h.1
        | succ n2 =>
          have := (ih.mp h.2) n2 (by simpa using hn)
          simpa using this
      · intro h
        rw [Bool.and_eq_true, decide_eq_true_eq]
        constructor
        · exact h 0 (by simp)
        · refine ih.mpr ?_
          intro n hn
          have := h (n + 1) (by simpa using hn)
          simpa using this

theorem is_sorted_of_pairwise (l : List α)
    (h : ∀ j1 j2 : Int, 0 ≤ j1 → j1 ≤ j2 → j2 ≤ (l.length : Int) - 1 →
      geti l j1 ≤ geti l j2) : is_sorted l = true := by
  rw [is_sorted_iff_adj]
  intro n hn
  have h2 := h (n : Int) ((n : Int) + 1) (by omega) (by omega) (by omega)
  have e1 : geti l (n : Int) = l.getD n default := by
    rw [geti, Int.toNat_natCast]
  have e2 : geti l ((n : Int) + 1) = l.getD (n + 1) default := by
    have hc : ((n : Int) + 1).toNat = n + 1 := by omega
    rw [geti, hc]
  rw [e1, e2] at h2
  exact h2

theorem sort_variant_correct (arr : List α) (choose : Int → Int → Int)
    (hchoose : ∀ l h : Int, l ≤ h → l ≤ choose l h ∧ choose l h ≤ h) :
    ∃ out, (if arr.length = 0 then some arr
        else quicksortF choose arr.length arr 0 ((arr.length : Int) - 1)) = some out ∧
      is_sorted out = true ∧ List.Perm out arr := by
  by_cases hnil : arr.length = 0
  · refine ⟨arr, by rw [if_pos hnil], ?_, List.Perm.refl _⟩
    rw [List.length_eq_zero.mp hnil]
    rfl
  · obtain ⟨out, heq, hlen, hperm, _, hsorted⟩ :=
      quicksortF_spec choose hchoose arr.length arr 0 ((arr.length : Int) - 1)
        le_rfl (by omega) (by omega)
    refine ⟨out, by rw [if_neg hnil]; exact heq, ?_, hperm⟩
    refine is_sorted_of_pairwise out ?_
    intro j1 j2 h1 h2 h3
    exact hsorted j1 j2 h1 h2 (by omega)

/-- C2.  Both sorting variants — `randomized_quicksort` for any in-range pivot
stream (hence any seed) and `deterministic_quicksort_first_pivot` — succeed on
every input list, and the returned list is sorted (`is_sorted`) and a
permutation (multiset equality) of the input. -/
theorem c2_sort_correct (arr : List α) (choose : Int → Int → Int)
    (hchoose : ∀ l h : Int, l ≤ h → l ≤ choose l h ∧ choose l h ≤ h) :
    (∃ out, randomized_quicksort choose arr = some out ∧ is_sorted out = true ∧
      List.Perm out arr) ∧
    (∃ out, deterministic_quicksort_first_pivot arr = some out ∧ is_sorted out = true ∧
      List.Perm out arr) := by
  constructor
  · exact sort_variant_correct arr choose hchoose
  · exact sort_variant_correct arr (fun lo _ => lo) (fun l h hlh => ⟨le_refl l, hlh⟩)

/-! Aliasing model for the non-mutation claim: lists live at addresses in a
store; `a = list(arr)` reads the caller's list by value, the in-place sort
works on the fresh cell `dst`, and the caller's cell `src` is a different
address. -/

def Store (β : Type) := Nat → List β

def writeStore (σ : Store α) (addr : Nat) (l : List α) : Store α :=
  fun a2 => if a2 = addr then l else σ a2

/-- The call `randomized_quicksort(arr, seed)` acting on a store: read the
value at `src`, sort the fresh copy at `dst`. -/
def randomized_quicksort_call (σ : Store α) (src dst : Nat)
    (choose : Int → Int → Int) : Option (Store α) :=
  (randomized_quicksort choose (σ src)).map (writeStore σ dst)

/-- The call `deterministic_quicksort_first_pivot(arr)` acting on a store. -/
def deterministic_quicksort_call (σ : Store α) (src dst : Nat) : Option (Store α) :=
  (deterministic_quicksort_first_pivot (σ src)).map (writeStore σ dst)

/-- C7.  Sorting never mutates the caller's list: after either call the source
address still holds exactly the original list, while the returned copy (a
distinct address) holds a sorted permutation of it. -/
theorem c7_sort_does_not_mutate_input (σ : Store α) (src dst : Nat)
    (choose : Int → Int → Int) (hne : src ≠ dst)
    (hchoose : ∀ l h : Int, l ≤ h → l ≤ choose l h ∧ choose l h ≤ h) :
    (∃ σ2, randomized_quicksort_call σ src dst choose = some σ2 ∧
      σ2 src = σ src ∧ is_sorted (σ2 dst) = true ∧ List.Perm (σ2 dst) (σ src)) ∧
    (∃ σ2, deterministic_quicksort_call σ src dst = some σ2 ∧
      σ2 src = σ src ∧ is_sorted (σ2 dst) = true ∧ List.Perm (σ2 dst) (σ src)) := by
  obtain ⟨out1, he1, hs1, hp1⟩ := sort_variant_correct (σ src) choose hchoose
  obtain ⟨out2, he2, hs2, hp2⟩ :=
    sort_variant_correct (σ src) (fun lo _ => lo) (fun l h hlh => ⟨le_refl l, hlh⟩)
  constructor
  · refine ⟨writeStore σ dst out1, ?_, ?_, ?_, ?_⟩
    · rw [randomized_quicksort_call, randomized_quicksort, he1, Option.map_some']
    · rw [writeStore, if_neg hne]
    · rw [writeStore, if_pos rfl]
      exact hs1
    · rw [writeStore, if_pos rfl]
      exact hp1
  · refine ⟨writeStore σ dst out2, ?_, ?_, ?_, ?_⟩
    · rw [deterministic_quicksort_call, deterministic_quicksort_first_pivot, he2,
        Option.map_some']
    · rw [writeStore, if_neg hne]
    · rw [writeStore, if_pos rfl]
      exact hs2
    · rw [writeStore, if_pos rfl]
      exact hp2

/-- C8.  On an in-bounds window with an in-window pivot index,
`_partition_3way` succeeds and returns `(lt, gt)` with `lo ≤ lt ≤ gt ≤ hi`:
afterwards the window splits into a strictly-less prefix, an equal-to-pivot
run `[lt..gt]`, and a strictly-greater suffix; the whole array is a
permutation of the input, the window contents are a permutation of the old
window, everything outside the window is untouched, and on an all-equal window
the equal run covers the whole window (`lt = lo` and `gt = hi`). -/
theorem c8_partition_3way_full (arr : List α) (lo hi pivot_index : Int)
    (hlo : 0 ≤ lo) (hpi1 : lo ≤ pivot_index) (hpi2 : pivot_index ≤ hi)
    (hhi : hi < (arr.length : Int)) :
    ∃ arr2 lt gt, partition_3way arr lo hi pivot_index = some (arr2, lt, gt) ∧
      lo ≤ lt ∧ lt ≤ gt ∧ gt ≤ hi ∧
      (∀ j : Int, lo ≤ j → j < lt → geti arr2 j < geti arr pivot_index) ∧
      (∀ j : Int, lt ≤ j → j ≤ gt → geti arr2 j = geti arr pivot_index) ∧
      (∀ j : Int, gt < j → j ≤ hi → geti arr pivot_index < geti arr2 j) ∧
      List.Perm arr2 arr ∧
      List.Perm (windowList arr2 lo hi) (windowList arr lo hi) ∧
      (∀ j : Int, 0 ≤ j → (j < lo ∨ hi < j) → geti arr2 j = geti arr j) ∧
      ((∀ j : Int, lo ≤ j → j ≤ hi → geti arr j = geti arr pivot_index) →
        lt = lo ∧ gt = hi) := by
  obtain ⟨arr2, lt, gt, hpart, hlen, hperm, hframe, hb1, hb2, hb3, hless, hequal,
    hgreater⟩ := partition_3way_spec arr lo hi pivot_index hlo hpi1 hpi2 hhi
  have hwperm : List.Perm (windowList arr2 lo hi) (windowList arr lo hi) :=
    window_perm arr arr2 lo hi hlo hlen hperm hframe hhi
  refine ⟨arr2, lt, gt, hpart, hb1, hb2, hb3, hless, hequal, hgreater, hperm,
    hwperm, hframe, ?_⟩
  intro hall
  have htrans : ∀ j : Int, lo ≤ j → j ≤ hi → geti arr2 j = geti arr pivot_index :=
    window_all_transfer arr arr2 lo hi (fun x => x = geti arr pivot_index) hwperm
      hall hlo hhi (by omega)
  constructor
  · by_contra hne
    have hlt : lo < lt := by omega
    have hv1 : geti arr2 lo < geti arr pivot_index := hless lo le_rfl hlt
    have hv2 : geti arr2 lo = geti arr pivot_index := htrans lo le_rfl (by omega)
    rw [hv2] at hv1
    exact lt_irrefl _ hv1
  · by_contra hne
    have hgt : gt < hi := by omega
    have hv1 : geti arr pivot_index < geti arr2 hi := hgreater hi hgt le_rfl
    have hv2 : geti arr2 hi = geti arr pivot_index := htrans hi (by omega) le_rfl
    rw [hv2] at hv1
    exact lt_irrefl _ hv1

/-! Concrete instances exercising each theorem with hypotheses. -/

def bananaTable : HashTableChaining String Nat :=
  (runOps (mkHashTable Nat 8 3 4 String.length (fun _ => (0, 0)))
    [HOp.ins "apple" 10, HOp.ins "banana" 20]).getD
    (mkHashTable Nat 8 3 4 String.length (fun _ => (0, 0)))

theorem bananaTable_Inv : bananaTable.Inv :=
  ⟨by decide, ⟨3, by decide⟩, by decide, by decide, by decide⟩

def c3RunTable : HashTableChaining Nat Nat :=
  (runOps (mkHashTable Nat 4 3 4 (fun k => k) (fun _ => (0, 0)))
    [HOp.ins 0 0, HOp.ins 1 0, HOp.ins 2 0, HOp.ins 3 0]).getD
    (mkHashTable Nat 4 3 4 (fun k => k) (fun _ => (0, 0)))

def c4RunTable : HashTableChaining Nat Nat :=
  (runOps (mkHashTable Nat 8 3 4 (fun k => k) (fun _ => (0, 0)))
    [HOp.ins 0 0, HOp.ins 1 0, HOp.ins 2 0, HOp.ins 3 0,
     HOp.ins 4 0, HOp.ins 5 0, HOp.ins 6 0, HOp.ins 7 0]).getD
    (mkHashTable Nat 8 3 4 (fun k => k) (fun _ => (0, 0)))

def store0 : Store Int := fun n => if n = 0 then [2, 1] else []

/-- C2 at a concrete input: the variants compute, and the theorem applies with
the first-index pivot choice. -/
theorem c2_sort_correct_witness :
    (randomized_quicksort (fun l _ => l) ([3, 1, 2] : List Int) = some [1, 2, 3]) ∧
    (deterministic_quicksort_first_pivot ([5, 4, 3, 2, 1] : List Int) =
      some [1, 2, 3, 4, 5]) ∧
    ((∃ out, randomized_quicksort (fun l _ => l) ([3, 1, 2] : List Int) = some out ∧
        is_sorted out = true ∧ List.Perm out [3, 1, 2]) ∧
      (∃ out, deterministic_quicksort_first_pivot ([3, 1, 2] : List Int) = some out ∧
        is_sorted out = true ∧ List.Perm out [3, 1, 2])) :=
  ⟨by decide, by decide,
    c2_sort_correct [3, 1, 2] (fun l _ => l) (fun l h hlh => ⟨le_refl l, hlh⟩)⟩

/-- C3 (amended) at the concrete 4-insert run: the reachable-state bound holds
with equality, `4 * 4 = 3 * 4 + 4`. -/
theorem c3_load_factor_bound_witness : 4 * c3RunTable.n ≤ 3 * c3RunTable.m + 4 :=
  (c3_load_factor_bound_amended (K := Nat) (V := Nat)).1 4 (fun k => k) (fun _ => (0, 0))
    [HOp.ins 0 0, HOp.ins 1 0, HOp.ins 2 0, HOp.ins 3 0] c3RunTable rfl

set_option maxHeartbeats 8000000 in
/-- C4 (amended) at a concrete run from capacity 8 that grows to `m = 16` with
`n = 8`: the shrink bound `m ≤ 5n` holds. -/
theorem c4_shrink_bound_witness : c4RunTable.m ≤ 5 * c4RunTable.n :=
  c4_shrink_bound_amended 8 (fun k => k) (fun _ => (0, 0))
    [HOp.ins 0 0, HOp.ins 1 0, HOp.ins 2 0, HOp.ins 3 0,
     HOp.ins 4 0, HOp.ins 5 0, HOp.ins 6 0, HOp.ins 7 0] c4RunTable
    (by decide) rfl (by decide)

/-- C5 at the spec's scenario: after `insert("apple",10); insert("banana",20)`,
re-inserting `"banana"` with 99 keeps `n` and makes search return 99. -/
theorem c5_insert_existing_key_witness :
    bananaTable.search "banana" = some 20 ∧
    ∃ t2, HashTableChaining.insertF (bananaTable.totalItems + 2) bananaTable
        "banana" 99 = some t2 ∧
      t2.n = bananaTable.n ∧ t2.search "banana" = some 99 :=
  ⟨by decide,
    c5_insert_existing_key_updates bananaTable "banana" 20 99 bananaTable_Inv (by decide)⟩

/-- C6 at a concrete table and target capacity 16. -/
theorem c6_resize_preserves_witness :
    ∃ t2, HashTableChaining.resizeF (bananaTable.totalItems + 1) bananaTable 16 =
        some t2 ∧
      (∀ key, t2.search key = bananaTable.search key) ∧ t2.n = bananaTable.n ∧
      (bananaTable.n * bananaTable.mlf_den ≤
          bananaTable.mlf_num * next_power_of_two 16 + bananaTable.mlf_den →
        t2.m = next_power_of_two 16) :=
  c6_resize_preserves_membership bananaTable 16 bananaTable_Inv

/-- C7 at a concrete store: address 0 holds `[2, 1]`; after the call it still
holds `[2, 1]` while address 1 holds `[1, 2]`. -/
theorem c7_sort_does_not_mutate_witness :
    ((randomized_quicksort_call store0 0 1 (fun l _ => l)).map
      (fun s2 => (s2 0, s2 1)) = some ([2, 1], [1, 2])) ∧
    ((∃ s2, randomized_quicksort_call store0 0 1 (fun l _ => l) = some s2 ∧
        s2 0 = store0 0 ∧ is_sorted (s2 1) = true ∧ List.Perm (s2 1) (store0 0)) ∧
      (∃ s2, deterministic_quicksort_call store0 0 1 = some s2 ∧
        s2 0 = store0 0 ∧ is_sorted (s2 1) = true ∧ List.Perm (s2 1) (store0 0))) :=
  ⟨by decide,
    c7_sort_does_not_mutate_input store0 0 1 (fun l _ => l) (by decide)
      (fun l h hlh => ⟨le_refl l, hlh⟩)⟩

/-- C8 at the spec's all-duplicate scenario `[3,3,3,3,3]` (window = whole
array, first-element pivot): the equal run covers the whole window. -/
theorem c8_partition_3way_witness :
    (partition_3way ([3, 3, 3, 3, 3] : List Int) 0 4 0 =
      some ([3, 3, 3, 3, 3], 0, 4)) ∧
    (∃ arr2 lt gt, partition_3way ([3, 3, 3, 3, 3] : List Int) 0 4 0 =
        some (arr2, lt, gt) ∧
      0 ≤ lt ∧ lt ≤ gt ∧ gt ≤ 4 ∧
      (∀ j : Int, 0 ≤ j → j < lt →
        geti arr2 j < geti ([3, 3, 3, 3, 3] : List Int) 0) ∧
      (∀ j : Int, lt ≤ j → j ≤ gt →
        geti arr2 j = geti ([3, 3, 3, 3, 3] : List Int) 0) ∧
      (∀ j : Int, gt < j → j ≤ 4 →
        geti ([3, 3, 3, 3, 3] : List Int) 0 < geti arr2 j) ∧
      List.Perm arr2 [3, 3, 3, 3, 3] ∧
      List.Perm (windowList arr2 0 4) (windowList ([3, 3, 3, 3, 3] : List Int) 0 4) ∧
      (∀ j : Int, 0 ≤ j → (j < 0 ∨ 4 < j) →
        geti arr2 j = geti ([3, 3, 3, 3, 3] : List Int) j) ∧
      ((∀ j : Int, 0 ≤ j → j ≤ 4 →
          geti ([3, 3, 3, 3, 3] : List Int) j = geti ([3, 3, 3, 3, 3] : List Int) 0) →
        lt = 0 ∧ gt = 4)) :=
  ⟨by decide,
    c8_partition_3way_full [3, 3, 3, 3, 3] 0 4 0 (by decide) (by decide) (by decide)
      (by decide)⟩

/-- C9 at the spec's scenario: the table does not contain `"orange"`, search
returns the sentinel and delete (via the theorem) returns `false`. -/
theorem c9_absence_is_signalled_witness :
    bananaTable.search "orange" = none ∧
    ((bananaTable.search "orange" = none ↔
        ∀ v, ("orange", v) ∉ bananaTable.table.flatten) ∧
      ∃ t2, HashTableChaining.deleteF (bananaTable.totalItems + 2) bananaTable
        "orange" = some (t2, (bananaTable.search "orange").isSome)) :=
  ⟨by decide, c9_absence_is_signalled bananaTable "orange" bananaTable_Inv⟩

/-- C10 at the concrete 4-insert run. -/
theorem c10_stored_keys_distinct_witness :
    ((c3RunTable.table.flatten.map Prod.fst).Nodup) ∧
    c3RunTable.n = c3RunTable.table.flatten.length :=
  c10_stored_keys_distinct 4 3 4 (fun k => k) (fun _ => (0, 0))
    [HOp.ins 0 0, HOp.ins 1 0, HOp.ins 2 0, HOp.ins 3 0] c3RunTable rfl
